import Mathlib

/-!
Verification development for the chartForge PDF-chart-to-ChordPro converter
(`scripts/convert_pdf.py`).  The Python functions are shallowly embedded as
executable Lean definitions: strings are lists of characters (`Str`), the
floating-point coordinates and font sizes of the PDF tokens are modelled as
rationals, and Python dictionaries are modelled as association lists.
Python's ASCII-relevant case mapping (`str.upper`, `str.lower`, `str.title`)
is modelled by an explicit table on the 26 letter pairs; characters outside
ASCII are left unchanged by the case maps, which matches Python on every
character the converter manipulates.
-/

namespace ChartForge

/-- Strings are modelled as lists of characters. -/
abbrev Str := List Char

/-- Rational addition computed through `Rat.divInt` so that it reduces inside
the kernel; proved equal to `+` in `qadd_eq`. -/
def qadd (a b : ℚ) : ℚ :=
  Rat.divInt (a.num * (b.den : ℤ) + b.num * (a.den : ℤ)) ((a.den : ℤ) * (b.den : ℤ))

/-- Rational subtraction computed through `Rat.divInt`; proved equal to `-`
in `qsub_eq`. -/
def qsub (a b : ℚ) : ℚ :=
  Rat.divInt (a.num * (b.den : ℤ) - b.num * (a.den : ℤ)) ((a.den : ℤ) * (b.den : ℤ))

/-- Absolute value of a rational, computed so that it reduces inside the
kernel; proved equal to `|·|` in `myAbs_eq`. -/
def myAbs (q : ℚ) : ℚ := if q < 0 then Rat.divInt (-q.num) q.den else q

theorem qadd_eq (a b : ℚ) : qadd a b = a + b := by
  rw [qadd]
  rw [show a + b = Rat.divInt a.num a.den + Rat.divInt b.num b.den by
    rw [Rat.num_divInt_den, Rat.num_divInt_den]]
  rw [Rat.divInt_add_divInt _ _ (by exact_mod_cast a.den_nz) (by exact_mod_cast b.den_nz)]

theorem qsub_eq (a b : ℚ) : qsub a b = a - b := by
  rw [qsub]
  rw [show a - b = Rat.divInt a.num a.den - Rat.divInt b.num b.den by
    rw [Rat.num_divInt_den, Rat.num_divInt_den]]
  rw [Rat.divInt_sub_divInt _ _ (by exact_mod_cast a.den_nz) (by exact_mod_cast b.den_nz)]

theorem myAbs_eq (q : ℚ) : myAbs q = |q| := by
  rw [myAbs]
  split
  · rw [abs_of_neg (by assumption), ← Rat.neg_divInt, Rat.num_divInt_den]
  · exact (abs_of_nonneg (le_of_not_lt (by assumption))).symm

/-- The 26 ASCII letter pairs (lower case, upper case), the table behind the
model of Python's case mappings. -/
def casePairs : List (Char × Char) :=
  [('a', 'A'), ('b', 'B'), ('c', 'C'), ('d', 'D'), ('e', 'E'), ('f', 'F'),
   ('g', 'G'), ('h', 'H'), ('i', 'I'), ('j', 'J'), ('k', 'K'), ('l', 'L'),
   ('m', 'M'), ('n', 'N'), ('o', 'O'), ('p', 'P'), ('q', 'Q'), ('r', 'R'),
   ('s', 'S'), ('t', 'T'), ('u', 'U'), ('v', 'V'), ('w', 'W'), ('x', 'X'),
   ('y', 'Y'), ('z', 'Z')]

/-- The table of `casePairs` with the components of each pair swapped. -/
def caseRev : List (Char × Char) := casePairs.map Prod.swap

/-- Uppercase a character (model of Python's per-character `upper`). -/
def upChar (c : Char) : Char := (List.lookup c casePairs).getD c

/-- Lowercase a character (model of Python's per-character `lower`). -/
def lowChar (c : Char) : Char := (List.lookup c caseRev).getD c

/-- A character is a letter exactly when it appears in the case table. -/
def isLetterC (c : Char) : Bool :=
  (casePairs.map Prod.fst).contains c || (casePairs.map Prod.snd).contains c

/-- Uppercase a string, modelling Python's `str.upper`. -/
def upperStr (l : Str) : Str := l.map upChar

/-- Lowercase a string, modelling Python's `str.lower`. -/
def lowerStr (l : Str) : Str := l.map lowChar

/-- Model of Python's `str.isdigit` (`''.isdigit()` is `False`). -/
def pyIsDigit (l : Str) : Bool := !l.isEmpty && l.all Char.isDigit

/-- Model of Python's substring test `pat in l`. -/
def containsSub (pat : Str) : Str → Bool
  | [] => pat.isEmpty
  | c :: rest => pat.isPrefixOf (c :: rest) || containsSub pat rest

/-- Model of Python's `str.title`: the first letter of each maximal run of
letters is uppercased, the following letters are lowercased, every other
character is left unchanged.  The flag records whether the previous
character was a letter. -/
def titleAux : Bool → Str → Str
  | _, [] => []
  | prev, c :: cs =>
    if isLetterC c then
      (if prev then lowChar c else upChar c) :: titleAux true cs
    else
      c :: titleAux false cs

/-- Model of Python's `str.title`. -/
def pyTitle (l : Str) : Str := titleAux false l

/-- Drop a leading run of characters satisfying `p` (Python strips by
whitespace; `re.sub` on an anchored class strips by that class). -/
def trimL (p : Char → Bool) (l : Str) : Str := l.dropWhile p

/-- Split a string into the part before, and the maximal trailing run of,
characters satisfying `p`.  `(spanRev p l).1 ++ (spanRev p l).2 = l`. -/
def spanRev (p : Char → Bool) : Str → Str × Str
  | [] => ([], [])
  | c :: cs =>
    let r := spanRev p cs
    if r.1 = [] ∧ p c then ([], c :: r.2) else (c :: r.1, r.2)

/-- Drop the maximal trailing run of characters satisfying `p`. -/
def trimR (p : Char → Bool) (l : Str) : Str := (spanRev p l).1

/-- Model of Python's `str.strip`: drop leading and trailing whitespace. -/
def pyStrip (l : Str) : Str := trimR Char.isWhitespace (trimL Char.isWhitespace l)

/-- Join a list of strings with a single separator string between elements,
modelling Python's `sep.join`. -/
def joinSep (sep : Str) (parts : List Str) : Str := List.intercalate sep parts

/-- `normalize_chord` from `convert_pdf.py`: replace `♯` by `#` and `♭` by
`b`, and remove every space character.  (The Python guard `if s else s` is
the identity on the empty string, which the total function already is.) -/
def normalize_chord (s : Str) : Str :=
  (s.map (fun c => if c = '♯' then '#' else if c = '♭' then 'b' else c)).filter
    (fun c => c ≠ ' ')

/-- Semantic roles assigned to tokens by `classify_word`. -/
inductive Role where
  | badge
  | section_name
  | chord_modifier
  | bass_note
  | chord
  | dynamics
  | lyric
  | title
  | meta
  | unknown
deriving DecidableEq

/-- A positioned word token as handed to the converter by the PDF extractor:
text, bounding box, font name and font size.  Coordinates and sizes are
modelled as rationals. -/
structure Word where
  text : Str
  x0 : ℚ
  top : ℚ
  bottom : ℚ
  fontname : Str
  size : ℚ
deriving DecidableEq

/-- The chord-extension keywords used to tell chord modifiers from badges. -/
def chord_modifier_patterns : List Str :=
  ["sus".data, "add".data, "maj".data, "min".data, "dim".data, "aug".data, "m".data]

/-- `classify_word` from `convert_pdf.py`: the ordered font-based rule table
mapping a token to its role, evaluated top to bottom, first match wins. -/
def classify_word (w : Word) : Role :=
  let is_bold := containsSub ("Bold".data) w.fontname
  let is_regular := containsSub ("Regular".data) w.fontname || !is_bold
  let is_modifier :=
    chord_modifier_patterns.any (fun p => p.isPrefixOf (lowerStr w.text)) || pyIsDigit w.text
  if is_bold ∧ (9 : ℚ) ≤ w.size ∧ w.size ≤ 11 then
    (if is_modifier then Role.chord_modifier else Role.badge)
  else if is_bold ∧ (14 : ℚ) ≤ w.size ∧ w.size ≤ 16 then Role.section_name
  else if is_bold ∧ (['/'] : Str).isPrefixOf w.text then Role.bass_note
  else if is_bold ∧ (13 : ℚ) ≤ w.size ∧ w.size ≤ 14 ∧ w.text = ['m'] then Role.chord_modifier
  else if is_bold ∧ (13 : ℚ) ≤ w.size ∧ w.size ≤ 14 then Role.chord
  else if is_regular ∧ (12 : ℚ) ≤ w.size ∧ w.size < 13 then Role.dynamics
  else if is_regular ∧ (13 : ℚ) ≤ w.size ∧ w.size ≤ 14 then Role.lyric
  else if is_bold ∧ (20 : ℚ) < w.size then Role.title
  else if w.size < 12 then Role.meta
  else Role.unknown

example :
    classify_word
      { text := ['G'], x0 := 8, top := 100, bottom := 110,
        fontname := "Helvetica-Bold".data, size := mkRat 68 5 } = Role.chord := by
  decide

example :
    classify_word
      { text := "grace".data, x0 := 8, top := 100, bottom := 110,
        fontname := "Helvetica-Regular".data, size := mkRat 68 5 } = Role.lyric := by
  decide

example :
    classify_word
      { text := ['1'], x0 := 8, top := 100, bottom := 110,
        fontname := "Helvetica-Bold".data, size := 10 } = Role.chord_modifier := by
  decide

example : normalize_chord ("C ♯x♭".data) = "C#xb".data := by decide

example : pyTitle ("pre-chorus 2X".data) = "Pre-Chorus 2X".data := by decide

example : pyStrip ("  a b  ".data) = "a b".data := by decide

/-- Replace the accidental glyphs `♯`/`♭` by `#`/`b` (the transformation the
metadata extractor applies to the captured key). -/
def normAccidentals (s : Str) : Str :=
  s.map (fun c => if c = '♯' then '#' else if c = '♭' then 'b' else c)

/-- Does the string end with the character `c`?  (Python `str.endswith`.) -/
def endsWithC (c : Char) (l : Str) : Bool := l.getLast? == some c

/-- The song metadata record produced by `extract_metadata`; every field is
always present (the Python dictionary is initialised with all five keys). -/
structure Metadata where
  title : Str
  artist : Str
  key : Str
  tempo : Str
  time : Str
deriving DecidableEq

/-- Scan of the first-page lines for title and artist, the loop of
`extract_metadata` (`convert_pdf.py` lines 99–127).  `idx` is the loop
index, `parts` the accumulated title fragments, `artist` the artist found
so far (the empty string when none). -/
def metaScan (idx : Nat) (lines : List Str) (parts : List Str) (artist : Str) :
    List Str × Str :=
  match lines with
  | [] => (parts, artist)
  | line :: rest =>
    let ls := pyStrip line
    if containsSub ("Page:".data) line || containsSub ("Key:".data) line then
      if containsSub ("Key:".data) line then
        match artistPre line with
        | some a =>
          let at' := pyStrip a
          if at' ≠ [] ∧ ¬ endsWithC ')' at' ∧ ¬ endsWithC ']' at' then (parts, at')
          else (parts, artist)
        | none => (parts, artist)
      else (parts, artist)
    else if idx = 0 then metaScan 1 rest (parts ++ [ls]) artist
    else if idx = 1 then
      if (([')'] : Str).isPrefixOf ls || ([']'] : Str).isPrefixOf ls ||
          (match parts with
           | [] => false
           | h :: _ =>
             decide (h.count '(' > h.count ')') || decide (h.count '[' > h.count ']'))) then
        metaScan 2 rest (parts ++ [ls]) artist
      else (parts, ls)
    else metaScan (idx + 1) rest parts artist
where
  /-- Model of `re.match(r'^(.+?)\s*Key:', line)`: the shortest non-empty
  prefix that is followed, after optional whitespace, by `Key:`. -/
  artistPre (l : Str) : Option Str := go [] l
  go (acc : Str) : Str → Option Str
    | [] => none
    | c :: rest =>
      if ("Key:".data).isPrefixOf (rest.dropWhile Char.isWhitespace) then
        some (acc ++ [c])
      else go (acc ++ [c]) rest

/-- Search every suffix of the text for a match of `try`, returning the
leftmost capture: the model of `re.search` for the metadata patterns. -/
def reSearch (try' : Str → Option Str) : Str → Option Str
  | [] => try' []
  | c :: rest =>
    match try' (c :: rest) with
    | some r => some r
    | none => reSearch try' rest

/-- The accidental characters accepted after the key letter. -/
def keyAccidentals : Str := ['#', 'b', '♯', '♭']

/-- Match `Key:\s*([A-G][#b♯♭]?m?)` at the start of the string, returning
the capture group. -/
def tryKey (l : Str) : Option Str :=
  if ("Key:".data).isPrefixOf l then
    match (l.drop 4).dropWhile Char.isWhitespace with
    | [] => none
    | c :: r2 =>
      if 'A' ≤ c ∧ c ≤ 'G' then
        match r2 with
        | d :: r3 =>
          if keyAccidentals.contains d then
            (match r3 with
             | 'm' :: _ => some [c, d, 'm']
             | _ => some [c, d])
          else if d = 'm' then some [c, 'm'] else some [c]
        | [] => some [c]
      else none
  else none

/-- Match `Tempo:\s*(\d+)` at the start of the string, returning the
capture group. -/
def tryTempo (l : Str) : Option Str :=
  if ("Tempo:".data).isPrefixOf l then
    let r := (l.drop 6).dropWhile Char.isWhitespace
    let ds := r.takeWhile Char.isDigit
    if ds = [] then none else some ds
  else none

/-- Match `Time:\s*(\d+/\d+)` at the start of the string, returning the
capture group. -/
def tryTime (l : Str) : Option Str :=
  if ("Time:".data).isPrefixOf l then
    let r := (l.drop 5).dropWhile Char.isWhitespace
    let d1 := r.takeWhile Char.isDigit
    match r.dropWhile Char.isDigit with
    | '/' :: r2 =>
      let d2 := r2.takeWhile Char.isDigit
      if d1 = [] ∨ d2 = [] then none else some (d1 ++ '/' :: d2)
    | _ => none
  else none

/-- `extract_metadata` from `convert_pdf.py`, as a function of the raw text
of the first page: walk the lines for title/artist, then scan the whole
text for `Key:`, `Tempo:` and `Time:` patterns; the time signature
defaults to `4/4`. -/
def extract_metadata (text : Str) : Metadata :=
  let lines := text.splitOn '\n'
  let scan := metaScan 0 lines [] []
  { title := joinSep [' '] scan.1,
    artist := scan.2,
    key :=
      match reSearch tryKey text with
      | some k => normAccidentals k
      | none => [],
    tempo := (reSearch tryTempo text).getD [],
    time := (reSearch tryTime text).getD ("4/4".data) }

example :
    extract_metadata ("Amazing Grace\nJohn Newton Key: G Tempo: 90 Time: 3/4\n...".data) =
      { title := "Amazing Grace".data, artist := "John Newton".data, key := ['G'],
        tempo := "90".data, time := "3/4".data } := by
  decide

/-- A vector curve primitive (used only for sharp detection): its leftmost
x and top coordinates. -/
structure Curve where
  x0 : ℚ
  top : ℚ
deriving DecidableEq

/-- A chord or lyric span inside a built line: its (possibly composite)
text and its x coordinate. -/
structure Span where
  text : Str
  x : ℚ
deriving DecidableEq

/-- A line of a section: either a standalone dynamics marker or a
chord/lyric content line. -/
inductive PLine where
  | dyn (text : Str)
  | content (chords : List Span) (lyrics : List Span)
deriving DecidableEq

/-- A section: formatted name, header-level dynamics (empty string when
none) and the ordered list of lines. -/
structure PSection where
  name : Str
  dynamics : Str
  lines : List PLine
deriving DecidableEq

/-- Insert `x` into a list after every element `y` with `le y x`: the
insertion step of the stable sort. -/
def insertOrd {α : Type} (le : α → α → Bool) (x : α) : List α → List α
  | [] => [x]
  | y :: ys => if le y x then y :: insertOrd le x ys else x :: y :: ys

/-- Stable insertion sort, the model of Python's (stable) `sorted`. -/
def insSort {α : Type} (le : α → α → Bool) (l : List α) : List α :=
  l.foldl (fun acc x => insertOrd le x acc) []

/-- Comparison of words by the key `(top, x0)` used to order a column. -/
def wleTopX (a b : Word) : Bool :=
  decide (a.top < b.top) || (decide (a.top = b.top) && decide (a.x0 ≤ b.x0))

/-- Comparison of words by the key `x0` used to order a row. -/
def wleX (a b : Word) : Bool := decide (a.x0 ≤ b.x0)

/-- One step of the y-proximity row grouping of `parse_column` (lines
167–175): state is (finished rows, current row, current reference y).
Mirrors the Python quirk that `current_y or w['top']` replaces a zero
reference y by the incoming token's top. -/
def groupStep (st : List (List Word) × List Word × Option ℚ) (w : Word) :
    List (List Word) × List Word × Option ℚ :=
  match st.2.2 with
  | none => (st.1, st.2.1 ++ [w], some w.top)
  | some y =>
    if myAbs (qsub w.top y) ≤ 6 then
      (st.1, st.2.1 ++ [w], some (if y = 0 then w.top else y))
    else
      ((if st.2.1 = [] then st.1 else st.1 ++ [insSort wleX st.2.1]), [w], some w.top)

/-- Group a (top, x0)-sorted column of words into visual rows, each row
sorted by x0 (lines 162–177 of `convert_pdf.py`). -/
def groupRows (ws : List Word) : List (List Word) :=
  let st := ws.foldl groupStep ([], [], none)
  st.1 ++ (if st.2.1 = [] then [] else [insSort wleX st.2.1])

/-- `detect_sharp_curves` from `convert_pdf.py`: is some curve strictly
between the chord's x and the modifier's x, with top within 10 of the
chord's top? -/
def detect_sharp_curves (curves : List Curve) (chord_x chord_y modifier_x : ℚ) : Bool :=
  curves.any (fun cv =>
    decide (chord_x < cv.x0) && decide (cv.x0 < modifier_x) &&
      decide (myAbs (qsub cv.top chord_y) < 10))

/-- One candidate step of the nearest-left search: replace the best chord
so far when this chord's distance `mx - x0` is strictly positive and
strictly smaller than the best distance so far. -/
def bestStep (mx : ℚ) (st : Option Word × ℚ) (cw : Word) : Option Word × ℚ :=
  let dist := qsub mx cw.x0
  if 0 < dist ∧ dist < st.2 then (some cw, dist) else st

/-- The nearest-left search of `parse_column`: scan `chords` keeping the
one whose positive distance `mx - x0` is smallest, starting from the
exclusive bound `bound` (25 for modifiers, 50 for bass notes). -/
def bestLeft (bound : ℚ) (chords : List Word) (mx : ℚ) : Option Word :=
  (chords.foldl (bestStep mx) ((none : Option Word), bound)).1

/-- Lookup in an association list keyed by rationals (model of a Python
dict keyed by the chord x coordinate). -/
def lookupQ {α : Type} : List (ℚ × α) → ℚ → Option α
  | [], _ => none
  | (k', v) :: rest, k => if k' = k then some v else lookupQ rest k

/-- Membership in a list of rationals (model of a Python set of keys). -/
def memQ (k : ℚ) (s : List ℚ) : Bool := s.any (fun x => decide (x = k))

/-- Append `v` to the list stored at key `k` (creating the entry if absent):
the model of `chord_modifiers[best_chord_x].append(...)`. -/
def updAppend (m : List (ℚ × List Str)) (k : ℚ) (v : Str) : List (ℚ × List Str) :=
  match m with
  | [] => [(k, [v])]
  | (k', vs) :: rest =>
    if k' = k then (k', vs ++ [v]) :: rest else (k', vs) :: updAppend rest k v

/-- Overwrite the value stored at key `k` (creating the entry if absent):
the model of `chord_bass[best_chord_x] = bass_w['text']`. -/
def updSet (m : List (ℚ × Str)) (k : ℚ) (v : Str) : List (ℚ × Str) :=
  match m with
  | [] => [(k, v)]
  | (k', v') :: rest =>
    if k' = k then (k', v) :: rest else (k', v') :: updSet rest k v

/-- One step of the modifier-attachment loop (lines 222–239): attach the
modifier's text to the nearest chord strictly left within 25, and record a
sharp when a curve sits between that chord and the modifier.  State is
(modifier map, sharp x set). -/
def modStep (curves : Option (List Curve)) (chords : List Word)
    (st : List (ℚ × List Str) × List ℚ) (mw : Word) :
    List (ℚ × List Str) × List ℚ :=
  match bestLeft 25 chords mw.x0 with
  | none => st
  | some cw =>
    let sharps :=
      match curves with
      | some cs =>
        if detect_sharp_curves cs cw.x0 cw.top mw.x0 then st.2 ++ [cw.x0] else st.2
      | none => st.2
    (updAppend st.1 cw.x0 mw.text, sharps)

/-- One step of the bass-note attachment loop (lines 243–253): the nearest
chord strictly left within 50 gets this bass text, overwriting any earlier
one. -/
def bassStep (chords : List Word) (m : List (ℚ × Str)) (bw : Word) : List (ℚ × Str) :=
  match bestLeft 50 chords bw.x0 with
  | none => m
  | some cw => updSet m cw.x0 bw.text

/-- One step of the standalone-sharp detection loop (lines 256–266): a
chord with no modifier and no sharp yet gets a sharp when a curve sits
within 15 to its right at similar height. -/
def soloSharpStep (curves : Option (List Curve)) (modMap : List (ℚ × List Str))
    (st : List ℚ) (cw : Word) : List ℚ :=
  if lookupQ modMap cw.x0 = none ∧ ¬ memQ cw.x0 st then
    match curves with
    | some cs =>
      if cs.any (fun cv =>
          decide (cw.x0 < cv.x0) && decide (cv.x0 < qadd cw.x0 15) &&
            decide (myAbs (qsub cv.top cw.top) < 10)) then
        st ++ [cw.x0]
      else st
    | none => st
  else st

/-- Assemble the composite chord texts of a row (lines 269–281): root text,
then `#` when a sharp was detected, then the attached modifier texts in
order, then the bass suffix. -/
def buildChords (raw_chords : List Word) (modMap : List (ℚ × List Str))
    (bassMap : List (ℚ × Str)) (sharps : List ℚ) : List (Str × ℚ) :=
  raw_chords.map (fun cw =>
    ((cw.text ++ (if memQ cw.x0 sharps then ['#'] else []) ++
        joinSep [] ((lookupQ modMap cw.x0).getD []) ++
        ((lookupQ bassMap cw.x0).getD [])),
      cw.x0))

/-- The horizontal-rule characters stripped from the end of a section
name. -/
def ruleChars : Str := ['─', '━', '—', '–', '-']

/-- Is the character one of the horizontal-rule characters? -/
def isRuleC (c : Char) : Bool := ruleChars.contains c

/-- The fixed table of known section labels and their canonical forms. -/
def nameMap : List (Str × Str) :=
  [("INTRO".data, "Intro".data), ("VERSE".data, "Verse".data),
   ("CHORUS".data, "Chorus".data), ("PRE CHORUS".data, "Pre Chorus".data),
   ("PRE-CHORUS".data, "Pre Chorus".data), ("BRIDGE".data, "Bridge".data),
   ("BREAKDOWN".data, "Breakdown".data), ("INTERLUDE".data, "Interlude".data),
   ("INSTRUMENTAL".data, "Instrumental".data), ("VAMP".data, "Vamp".data),
   ("TAG".data, "Tag".data), ("REFRAIN".data, "Refrain".data),
   ("ENDING".data, "Ending".data), ("OUTRO".data, "Outro".data),
   ("TURNAROUND".data, "Turnaround".data), ("HALF-CHORUS".data, "Half-Chorus".data)]

/-- Lookup in a string-keyed association list. -/
def lookupStr (m : List (Str × Str)) (k : Str) : Option Str :=
  match m with
  | [] => none
  | (k', v) :: rest => if k' = k then some v else lookupStr rest k

/-- Model of `re.search(r'(\d+)\s*$', name)` on an already-stripped name:
split off the maximal trailing digit run; when present, the part before it
is re-stripped and the run is re-appended after one space. -/
def numSplit (n : Str) : Str × Str :=
  let pr := spanRev Char.isDigit n
  if pr.2 = [] then (n, []) else (pyStrip pr.1, ' ' :: pr.2)

/-- `format_section_name` from `convert_pdf.py`: strip, drop trailing rule
characters, split off a trailing number, then map known uppercase labels to
their canonical form or fall back to title casing, and re-append the
number. -/
def format_section_name (name : Str) : Str :=
  let n1 := pyStrip name
  let n2 := pyStrip (trimR isRuleC n1)
  let bn := numSplit n2
  let formatted := (lookupStr nameMap (upperStr bn.1)).getD (pyTitle bn.1)
  formatted ++ bn.2

/-- Classify every word of a row. -/
def rowRoles (row : List Word) : List (Word × Role) :=
  row.map (fun w => (w, classify_word w))

/-- The words of a row carrying a given role, in row order. -/
def roleWords (cls : List (Word × Role)) (r : Role) : List Word :=
  (cls.filter (fun p => decide (p.2 = r))).map Prod.fst

/-- The texts of the words of a row carrying a given role, in row order. -/
def roleTexts (cls : List (Word × Role)) (r : Role) : List Str :=
  (roleWords cls r).map Word.text

/-- A row is a section-header row when it has at least two words and the
first classifies as `badge` and the second as `section_name`. -/
def isHeaderRow (cls : List (Word × Role)) : Bool :=
  match cls with
  | (_, r1) :: (_, r2) :: _ =>
    decide (r1 = Role.badge) && decide (r2 = Role.section_name)
  | _ => false

/-- The chord words of a row, in row order. -/
def rowChords (row : List Word) : List Word := roleWords (rowRoles row) Role.chord

/-- The chord-modifier words of a row, in row order. -/
def rowMods (row : List Word) : List Word := roleWords (rowRoles row) Role.chord_modifier

/-- The bass-note words of a row, in row order. -/
def rowBass (row : List Word) : List Word := roleWords (rowRoles row) Role.bass_note

/-- The lyric words of a row, in row order. -/
def rowLyrics (row : List Word) : List Word := roleWords (rowRoles row) Role.lyric

/-- The modifier-attachment pass of a row: the modifier map together with
the sharps detected between chords and their modifiers (lines 220–239). -/
def rowModState (curves : Option (List Curve)) (row : List Word) :
    List (ℚ × List Str) × List ℚ :=
  (rowMods row).foldl (modStep curves (rowChords row)) ([], [])

/-- The bass-attachment pass of a row (lines 241–253). -/
def rowBassMap (row : List Word) : List (ℚ × Str) :=
  (rowBass row).foldl (bassStep (rowChords row)) []

/-- The sharp set of a row after the standalone-sharp pass (lines
255–266). -/
def rowSharps (curves : Option (List Curve)) (row : List Word) : List ℚ :=
  (rowChords row).foldl (soloSharpStep curves (rowModState curves row).1)
    (rowModState curves row).2

/-- Process a non-header row into the open section (lines 210–300):
separate roles, attach modifiers and bass notes, detect sharps, then either
record a dynamics-only row or append a content line (or drop the row). -/
def processRow (curves : Option (List Curve)) (sec : PSection) (row : List Word) :
    PSection :=
  let lyricWs := rowLyrics row
  let dynamics_words := roleTexts (rowRoles row) Role.dynamics
  let chords := buildChords (rowChords row) (rowModState curves row).1
    (rowBassMap row) (rowSharps curves row)
  if dynamics_words ≠ [] ∧ chords = [] ∧ lyricWs = [] then
    let dyn_text := joinSep [' '] dynamics_words
    if sec.lines = [] then
      { sec with
        dynamics :=
          if sec.dynamics = [] then dyn_text
          else sec.dynamics ++ " - ".data ++ dyn_text }
    else { sec with lines := sec.lines ++ [PLine.dyn dyn_text] }
  else if chords ≠ [] ∨ lyricWs ≠ [] then
    { sec with
      lines := sec.lines ++ [PLine.content
        (chords.map (fun p => { text := normalize_chord p.1, x := p.2 }))
        (lyricWs.map (fun w => { text := w.text, x := w.x0 }))] }
  else sec

/-- Close an open section: append it to the finished sections when it has
at least one line, drop it otherwise (`convert_pdf.py` lines 193–194 and
302–303). -/
def closeSec (done : List PSection) (cur : Option PSection) : List PSection :=
  match cur with
  | some s => if s.lines ≠ [] then done ++ [s] else done
  | none => done

/-- One step of the section-building loop of `parse_column` (lines
179–300): state is (closed sections, open section).  A header row closes
the open section (kept only when it has lines) and opens a new one; any
other row is processed into the open section, or discarded when no section
is open. -/
def stepRow (curves : Option (List Curve)) (st : List PSection × Option PSection)
    (row : List Word) : List PSection × Option PSection :=
  match row with
  | [] => st
  | _ :: _ =>
    let cls := rowRoles row
    if isHeaderRow cls then
      let nm := format_section_name (joinSep [' '] (roleTexts cls Role.section_name))
      let dyn := joinSep [' '] (roleTexts cls Role.dynamics)
      (closeSec st.1 st.2, some { name := nm, dynamics := dyn, lines := [] })
    else
      match st.2 with
      | none => st
      | some sec => (st.1, some (processRow curves sec row))

/-- The worker of the line-merger pass, written so that every recursive
call is on the tail of the input (which keeps the function kernel
computable).  `pending` carries the chords of a line that had chords but no
lyrics and is waiting to see the following line: when that line is a
non-dynamics line with lyrics the two merge; otherwise the pending line is
emitted unchanged.  This is the `while` loop of lines 306–337 with the
`i + 2` advance expressed through the accumulator. -/
def mergeGo : List PLine → Option (List Span) → List PLine
  | [], none => []
  | [], some cs => [PLine.content cs []]
  | PLine.dyn t :: rest, none => PLine.dyn t :: mergeGo rest none
  | PLine.dyn t :: rest, some cs =>
    PLine.content cs [] :: PLine.dyn t :: mergeGo rest none
  | PLine.content cs2 ls2 :: rest, none =>
    if cs2 ≠ [] ∧ ls2 = [] then mergeGo rest (some cs2)
    else PLine.content cs2 ls2 :: mergeGo rest none
  | PLine.content cs2 ls2 :: rest, some cs =>
    if ls2 ≠ [] then PLine.content (cs ++ cs2) ls2 :: mergeGo rest none
    else
      PLine.content cs [] ::
        (if cs2 ≠ [] then mergeGo rest (some cs2)
         else PLine.content cs2 ls2 :: mergeGo rest none)

/-- The line-merger post-pass of `parse_column` (lines 306–337): a line
with chords but no lyrics followed by a non-dynamics line with lyrics is
merged into one line (chords concatenated, lyrics from the second);
everything else passes through. -/
def mergeLines (lines : List PLine) : List PLine := mergeGo lines none

set_option linter.unusedVariables false in
/-- `parse_column` from `convert_pdf.py`: sort the column's words by
`(top, x0)`, group them into rows, build sections out of the rows, close
the last open section (when it has lines) and run the merger pass.  The
`col_start_x` parameter is accepted and unused, as in the source; `curves`
is the page's curve list (`none` models `page=None`). -/
def parse_column (words : List Word) (col_start_x : ℚ)
    (curves : Option (List Curve)) : List PSection :=
  match words with
  | [] => []
  | _ :: _ =>
    let rows := groupRows (insSort wleTopX words)
    let st := rows.foldl (stepRow curves) ([], none)
    (closeSec st.1 st.2).map (fun s => { s with lines := mergeLines s.lines })

/-- Wrap a chord text in brackets, as the emitter does. -/
def bracketSpan (t : Str) : Str := '[' :: t ++ [']']

/-- Comparison of spans by their x coordinate. -/
def sleX (a b : Span) : Bool := decide (a.x ≤ b.x)

/-- The chord/lyric interleaving loop of `build_line` (lines 423–432): for
each lyric, first emit every chord from the front of the remaining chord
list whose x is at most the lyric's x plus 15, then the lyric text; finally
emit the chords still remaining. -/
def mixTokens : List Span → List Span → List Str
  | cs, [] => cs.map (fun c => bracketSpan c.text)
  | cs, ly :: lys =>
    (cs.takeWhile (fun c => decide (c.x ≤ qadd ly.x 15))).map (fun c => bracketSpan c.text) ++
      [ly.text] ++
      mixTokens (cs.dropWhile (fun c => decide (c.x ≤ qadd ly.x 15))) lys

/-- `build_line` from `convert_pdf.py`: serialize one content line, sorting
chords and lyrics by x and joining all emitted tokens with single
spaces. -/
def build_line (chords lyrics : List Span) : Str :=
  if chords = [] ∧ lyrics = [] then []
  else if chords = [] then joinSep [' '] ((insSort sleX lyrics).map Span.text)
  else if lyrics = [] then
    joinSep [' '] ((insSort sleX chords).map (fun c => bracketSpan c.text))
  else joinSep [' '] (mixTokens (insSort sleX chords) (insSort sleX lyrics))

/-- Defined from the specification's words for the mixed-line case (§4.8),
for comparison with `build_line`: for each lyric in x order, every
still-unconsumed chord whose x is ≤ the lyric's x + 15 is emitted first
(here by filtering the unconsumed chords), then the lyric text; remaining
chords are appended at the end. -/
def specEmit : List Span → List Span → List Str
  | cs, [] => cs.map (fun c => bracketSpan c.text)
  | cs, ly :: lys =>
    (cs.filter (fun c => decide (c.x ≤ qadd ly.x 15))).map (fun c => bracketSpan c.text) ++
      [ly.text] ++
      specEmit (cs.filter (fun c => !decide (c.x ≤ qadd ly.x 15))) lys

/-- The spec's mixed-line output: both lists sorted by x independently,
then the interleaving of `specEmit`, tokens joined by single spaces. -/
def spec_mixed_output (chords lyrics : List Span) : Str :=
  joinSep [' '] (specEmit (insSort sleX chords) (insSort sleX lyrics))

/-- Build a single-line ChordPro tag `\x7btag: value\x7d`. -/
def tagL (tag : Str) (v : Str) : Str := '\x7b' :: (tag ++ ':' :: ' ' :: v ++ ['\x7d'])

/-- The output lines contributed by one line of a section: a dynamics line
becomes a dynamics tag; a content line becomes its `build_line` text, or
nothing when that text is empty. -/
def lineOut : PLine → List Str
  | PLine.dyn t => [tagL ("dynamics".data) t]
  | PLine.content cs ls =>
    let out := build_line cs ls
    if out ≠ [] then [out] else []

/-- The output lines contributed by one section (lines 493–504): section
tag, optional dynamics tag, content lines, and a trailing blank line. -/
def sectionOut (s : PSection) : List Str :=
  [tagL ("section".data) s.name] ++
    (if s.dynamics ≠ [] then [tagL ("dynamics".data) s.dynamics] else []) ++
    (s.lines.map lineOut).flatten ++ [[]]

/-- The output assembly of `convert_pdf` (lines 482–504), as the list of
output lines: title tag (the Python `metadata.get('title', 'Untitled')`
reads a key that is always present, so the title value is emitted as is,
even when empty), optional artist/key/tempo/time tags, a blank line, then
each section's lines. -/
def buildOutput (md : Metadata) (sections : List PSection) : List Str :=
  [tagL ("title".data) md.title] ++
    (if md.artist ≠ [] then [tagL ("artist".data) md.artist] else []) ++
    (if md.key ≠ [] then [tagL ("key".data) md.key] else []) ++
    (if md.tempo ≠ [] then [tagL ("tempo".data) md.tempo] else []) ++
    (if md.time ≠ [] then [tagL ("time".data) md.time] else []) ++
    [[]] ++ (sections.map sectionOut).flatten

example :
    build_line [⟨"G".data, 8⟩, ⟨"D".data, 42⟩] [⟨"Amaz".data, 10⟩, ⟨"ing".data, 40⟩] =
      "[G] Amaz [D] ing".data := by
  decide

example : format_section_name ("CHORUS".data) = "Chorus".data := by decide

example : format_section_name ("VERSE 2".data) = "Verse 2".data := by decide

example : format_section_name ("PRE-CHORUS".data) = "Pre Chorus".data := by decide

example : format_section_name ("Outro  ──".data) = "Outro".data := by decide

example : format_section_name ("- -".data) = ['-'] := by decide

example : format_section_name ['-'] = [] := by decide

example :
    parse_column
      [{ text := ['A'], x0 := 10, top := 100, bottom := 110, fontname := "Bold".data, size := 10 },
       { text := "CHORUS".data, x0 := 30, top := 100, bottom := 112, fontname := "Bold".data,
         size := 15 },
       { text := ['C'], x0 := 100, top := 130, bottom := 140, fontname := "Bold".data,
         size := mkRat 27 2 },
       { text := "/C♯".data, x0 := 120, top := 130, bottom := 140, fontname := "Bold".data,
         size := mkRat 27 2 }] 0 none =
      [{ name := "Chorus".data, dynamics := [],
         lines := [PLine.content [⟨"C/C#".data, 100⟩] []] }] := by
  decide

example :
    parse_column
      [{ text := ['A'], x0 := 10, top := 100, bottom := 110, fontname := "Bold".data, size := 10 },
       { text := "──".data, x0 := 30, top := 100, bottom := 112, fontname := "Bold".data,
         size := 15 },
       { text := "la".data, x0 := 10, top := 130, bottom := 140, fontname := "Regular".data,
         size := mkRat 27 2 }] 0 none =
      [{ name := [], dynamics := [],
         lines := [PLine.content [] [⟨"la".data, 10⟩]] }] := by
  decide

/-- C6: on the first page `"Amazing Grace\nJohn Newton Key: G Tempo: 90 Time: 3/4\n..."`
the metadata extractor returns title `Amazing Grace`, artist `John Newton`,
key `G`, tempo `90` and time `3/4`; and whenever no `Time:` pattern matches
anywhere in the text, the time signature defaults to `4/4`. -/
theorem c6_metadata_round_trip :
    extract_metadata ("Amazing Grace\nJohn Newton Key: G Tempo: 90 Time: 3/4\n...".data) =
      { title := "Amazing Grace".data, artist := "John Newton".data, key := ['G'],
        tempo := "90".data, time := "3/4".data } ∧
    ∀ text : Str, reSearch tryTime text = none →
      (extract_metadata text).time = "4/4".data := by
  constructor
  · decide
  · intro text h
    simp [extract_metadata, h]

/-- Witness for C6: the time signature of a text with no `Time:` marker is
`4/4`. -/
theorem c6_metadata_round_trip_witness :
    (extract_metadata ("Amazing Grace\nJohn Newton Key: G".data)).time = "4/4".data :=
  c6_metadata_round_trip.2 ("Amazing Grace\nJohn Newton Key: G".data) (by decide)

/-- C2 (amended): a token that is not bold (so that no earlier rule of the
ordered table, all of which require boldness, can match) classifies as
`dynamics` exactly on the half-open size range `12.0 ≤ size < 13.0`; at
size exactly `13.0` it classifies as `lyric`, because the dynamics rule of
`classify_word` uses a strict upper bound. -/
theorem c2_dynamics_range (w : Word)
    (hb : containsSub ("Bold".data) w.fontname = false) :
    ((12 : ℚ) ≤ w.size ∧ w.size < 13 → classify_word w = Role.dynamics) ∧
    (w.size = 13 → classify_word w = Role.lyric) := by
  constructor
  · intro h
    simp [classify_word, hb, h.1, h.2]
  · intro h
    simp [classify_word, hb, h]
    norm_num

/-- Witness for C2: a non-bold token of size 12.5 is dynamics, one of size
exactly 13.0 is a lyric. -/
theorem c2_dynamics_range_witness :
    classify_word
        { text := ['x'], x0 := 0, top := 0, bottom := 0, fontname := "Regular".data,
          size := mkRat 25 2 } = Role.dynamics ∧
    classify_word
        { text := ['x'], x0 := 0, top := 0, bottom := 0, fontname := "Regular".data,
          size := 13 } = Role.lyric :=
  ⟨(c2_dynamics_range
      { text := ['x'], x0 := 0, top := 0, bottom := 0, fontname := "Regular".data,
        size := mkRat 25 2 } (by decide)).1 (by constructor <;> decide),
   (c2_dynamics_range
      { text := ['x'], x0 := 0, top := 0, bottom := 0, fontname := "Regular".data,
        size := 13 } (by decide)).2 (by decide)⟩

/-- C2 counterexample: a non-bold token of size exactly 13.0 — inside the
claimed closed dynamics range `12.0 ≤ s ≤ 13.0` — classifies as `lyric`,
not `dynamics`. -/
theorem c2_counterexample :
    classify_word
        { text := ['x'], x0 := 0, top := 0, bottom := 0, fontname := "Regular".data,
          size := 13 } ≠ Role.dynamics := by
  decide

/-- C5 (amended): when the metadata extractor returns an empty title, the
output's title tag is emitted with an empty value, `\x7btitle: \x7d` (the
`'Untitled'` default of `metadata.get` is unreachable because the key is
always present, and no caller substitutes the file name); producing the
output never fails on a missing field. -/
theorem c5_empty_title_tag (text : Str) (sections : List PSection)
    (h : (extract_metadata text).title = []) :
    (buildOutput (extract_metadata text) sections).head? = some ("\x7btitle: \x7d".data) := by
  have hh : (buildOutput (extract_metadata text) sections).head? =
      some (tagL ("title".data) (extract_metadata text).title) := rfl
  rw [hh, h]
  decide

/-- Witness for C5: a first page whose text is just `Key: G` yields an
empty title, and the output then opens with `\x7btitle: \x7d`. -/
theorem c5_empty_title_tag_witness :
    (buildOutput (extract_metadata ("Key: G".data)) []).head? =
      some ("\x7btitle: \x7d".data) :=
  c5_empty_title_tag ("Key: G".data) [] (by decide)

/-- C5 counterexample: for the concrete input text `Key: G` the extractor
returns an empty title and the emitted title tag carries an empty value —
it does not fall back to any file name. -/
theorem c5_counterexample :
    (extract_metadata ("Key: G".data)).title = [] ∧
    (buildOutput (extract_metadata ("Key: G".data)) []).head? =
      some ("\x7btitle: \x7d".data) := by
  decide

/-- C4: the merger pass.  A line with chords and no lyrics immediately
followed by a non-dynamics line with non-empty lyrics merges into a single
line carrying both chord lists (in order) and the second line's lyrics;
a chord-only line followed by a dynamics line does not merge; dynamics
lines, lines with lyrics, chord-less lines, a chord-only line followed by
a lyric-less content line, and a trailing chord-only line all pass through
unchanged. -/
theorem c4_line_merge :
    (∀ (cs cs2 ls2 : List Span) (rest : List PLine), cs ≠ [] → ls2 ≠ [] →
       mergeLines (PLine.content cs [] :: PLine.content cs2 ls2 :: rest) =
         PLine.content (cs ++ cs2) ls2 :: mergeLines rest) ∧
    (∀ (cs : List Span) (t : Str) (rest : List PLine),
       mergeLines (PLine.content cs [] :: PLine.dyn t :: rest) =
         PLine.content cs [] :: PLine.dyn t :: mergeLines rest) ∧
    (∀ (t : Str) (rest : List PLine),
       mergeLines (PLine.dyn t :: rest) = PLine.dyn t :: mergeLines rest) ∧
    (∀ (cs ls : List Span) (rest : List PLine), ls ≠ [] →
       mergeLines (PLine.content cs ls :: rest) =
         PLine.content cs ls :: mergeLines rest) ∧
    (∀ (ls : List Span) (rest : List PLine),
       mergeLines (PLine.content [] ls :: rest) =
         PLine.content [] ls :: mergeLines rest) ∧
    (∀ (cs cs2 : List Span) (rest : List PLine),
       mergeLines (PLine.content cs [] :: PLine.content cs2 [] :: rest) =
         PLine.content cs [] :: mergeLines (PLine.content cs2 [] :: rest)) ∧
    (∀ cs : List Span, mergeLines [PLine.content cs []] = [PLine.content cs []]) := by
  refine ⟨?_, ?_, ?_, ?_, ?_, ?_, ?_⟩
  · intro cs cs2 ls2 rest hcs hls2
    simp [mergeLines, mergeGo, hcs, hls2]
  · intro cs t rest
    by_cases hcs : cs = []
    · subst hcs
      simp [mergeLines, mergeGo]
    · simp [mergeLines, mergeGo, hcs]
  · intro t rest
    simp [mergeLines, mergeGo]
  · intro cs ls rest hls
    by_cases hcs : cs = []
    · subst hcs
      simp [mergeLines, mergeGo]
    · simp [mergeLines, mergeGo, hcs, hls]
  · intro ls rest
    simp [mergeLines, mergeGo]
  · intro cs cs2 rest
    by_cases hcs : cs = []
    · subst hcs
      simp [mergeLines, mergeGo]
    · by_cases hcs2 : cs2 = []
      · subst hcs2
        simp [mergeLines, mergeGo, hcs]
      · simp [mergeLines, mergeGo, hcs, hcs2]
  · intro cs
    by_cases hcs : cs = []
    · subst hcs
      simp [mergeLines, mergeGo]
    · simp [mergeLines, mergeGo, hcs]

/-- Witness for C4: a concrete chord-only line followed by a lyric line
merges; a chord-only line followed by a dynamics line stays as two
lines. -/
theorem c4_line_merge_witness :
    mergeLines [PLine.content [⟨['G'], 8⟩] [], PLine.content [] [⟨"la".data, 10⟩]] =
      [PLine.content [⟨['G'], 8⟩] [⟨"la".data, 10⟩]] ∧
    mergeLines [PLine.content [⟨['G'], 8⟩] [], PLine.dyn ("soft".data)] =
      [PLine.content [⟨['G'], 8⟩] [], PLine.dyn ("soft".data)] := by
  constructor
  · have h := c4_line_merge.1 [⟨['G'], 8⟩] [] [⟨"la".data, 10⟩] []
      (by decide) (by decide)
    rw [h]
    decide
  · have h := c4_line_merge.2.1 [⟨['G'], 8⟩] ("soft".data) []
    rw [h]
    decide

theorem mem_insertOrd {α : Type} (le : α → α → Bool) (x z : α) :
    ∀ l : List α, z ∈ insertOrd le x l ↔ z = x ∨ z ∈ l := by
  intro l
  induction l with
  | nil => simp [insertOrd]
  | cons y ys ih =>
    by_cases h : le y x = true
    · simp only [insertOrd, if_pos h, List.mem_cons, ih]
      try tauto
    · simp only [insertOrd, if_neg h, List.mem_cons]
      try tauto

theorem pairwise_insertOrd (x : Span) :
    ∀ l : List Span, l.Pairwise (fun a b => a.x ≤ b.x) →
      (insertOrd sleX x l).Pairwise (fun a b => a.x ≤ b.x) := by
  intro l
  induction l with
  | nil => simp [insertOrd]
  | cons y ys ih =>
    intro hp
    rw [List.pairwise_cons] at hp
    by_cases h : sleX y x = true
    · simp only [insertOrd, if_pos h, List.pairwise_cons]
      refine ⟨?_, ih hp.2⟩
      intro z hz
      rcases (mem_insertOrd sleX x z ys).mp hz with hzx | hzy
      · subst hzx
        exact of_decide_eq_true h
      · exact hp.1 z hzy
    · simp only [insertOrd, if_neg h, List.pairwise_cons]
      have hxy : x.x ≤ y.x := le_of_not_le (of_decide_eq_false (by simpa [sleX] using h))
      refine ⟨?_, hp.1, hp.2⟩
      intro z hz
      rcases List.mem_cons.mp hz with hzy | hzys
      · subst hzy
        exact hxy
      · exact le_trans hxy (hp.1 z hzys)

theorem pairwise_insSort (l : List Span) :
    (insSort sleX l).Pairwise (fun a b => a.x ≤ b.x) := by
  suffices h : ∀ (l : List Span) (acc : List Span),
      acc.Pairwise (fun a b => a.x ≤ b.x) →
      (l.foldl (fun acc x => insertOrd sleX x acc) acc).Pairwise (fun a b => a.x ≤ b.x) by
    exact h l [] (by simp)
  intro l
  induction l with
  | nil => intro acc hacc; simpa using hacc
  | cons y ys ih =>
    intro acc hacc
    exact ih (insertOrd sleX y acc) (pairwise_insertOrd y acc hacc)

theorem takeWhile_filter_sorted (b : ℚ) :
    ∀ l : List Span, l.Pairwise (fun a b => a.x ≤ b.x) →
      l.takeWhile (fun c => decide (c.x ≤ b)) = l.filter (fun c => decide (c.x ≤ b)) ∧
      l.dropWhile (fun c => decide (c.x ≤ b)) = l.filter (fun c => !decide (c.x ≤ b)) := by
  intro l
  induction l with
  | nil => simp
  | cons c rest ih =>
    intro hp
    rw [List.pairwise_cons] at hp
    by_cases h : c.x ≤ b
    · simp [List.takeWhile_cons, List.dropWhile_cons, List.filter_cons, h,
        (ih hp.2).1, (ih hp.2).2]
    · have hnil : rest.filter (fun c => decide (c.x ≤ b)) = [] := by
        rw [List.filter_eq_nil_iff]
        intro z hz
        simp only [decide_eq_true_eq]
        intro hzb
        exact h (le_trans (hp.1 z hz) hzb)
      have hself : rest.filter (fun c => !decide (c.x ≤ b)) = rest := by
        rw [List.filter_eq_self]
        intro z hz
        simp only [Bool.not_eq_true', decide_eq_false_iff_not]
        intro hzb
        exact h (le_trans (hp.1 z hz) hzb)
      simp [List.takeWhile_cons, List.dropWhile_cons, List.filter_cons, h, hnil, hself]

theorem mixTokens_eq_specEmit :
    ∀ (lys cs : List Span), cs.Pairwise (fun a b => a.x ≤ b.x) →
      mixTokens cs lys = specEmit cs lys := by
  intro lys
  induction lys with
  | nil => intro cs _; rfl
  | cons ly rest ih =>
    intro cs hp
    have h := takeWhile_filter_sorted (qadd ly.x 15) cs hp
    simp only [mixTokens, specEmit, h.1, h.2]
    rw [ih _ (List.Pairwise.filter _ hp)]

/-- C1 (amended): on a mixed line the emitter sorts chords and lyrics by x
independently and, for each lyric in x order, first emits every
still-unconsumed chord whose x is ≤ the lyric's x + 15 (each wrapped in
brackets), then the lyric text, then appends the remaining chords — and all
emitted tokens are joined by single spaces, so lyrics `Amaz@10, ing@40`
with chords `G@8, D@42` produce exactly `[G] Amaz [D] ing`. -/
theorem c1_emitter_interleave :
    (∀ chords lyrics : List Span, chords ≠ [] → lyrics ≠ [] →
       build_line chords lyrics = spec_mixed_output chords lyrics) ∧
    build_line [⟨['G'], 8⟩, ⟨['D'], 42⟩] [⟨"Amaz".data, 10⟩, ⟨"ing".data, 40⟩] =
      "[G] Amaz [D] ing".data := by
  constructor
  · intro chords lyrics hc hl
    rw [build_line, spec_mixed_output, if_neg (by tauto), if_neg hc, if_neg hl]
    rw [mixTokens_eq_specEmit _ _ (pairwise_insSort chords)]
  · decide

/-- Witness for C1: the code emitter and the spec's interleaving rule agree
on a concrete mixed line. -/
theorem c1_emitter_interleave_witness :
    build_line [⟨['G'], 8⟩] [⟨"la".data, 10⟩] =
      spec_mixed_output [⟨['G'], 8⟩] [⟨"la".data, 10⟩] :=
  c1_emitter_interleave.1 [⟨['G'], 8⟩] [⟨"la".data, 10⟩] (by decide) (by decide)

/-- C1 counterexample: the emitter joins every token with a single space,
so the example does not produce the claimed `[G]Amaz [D]ing`. -/
theorem c1_counterexample :
    build_line [⟨['G'], 8⟩, ⟨['D'], 42⟩] [⟨"Amaz".data, 10⟩, ⟨"ing".data, 40⟩] ≠
      "[G]Amaz [D]ing".data := by
  decide

theorem bestFold_char (mx : ℚ) :
    ∀ (l : List Word) (o : Option Word) (b : ℚ),
      ((l.foldl (bestStep mx) (o, b)) = (o, b) ∨
        ∃ w ∈ l, (l.foldl (bestStep mx) (o, b)).1 = some w ∧
          (l.foldl (bestStep mx) (o, b)).2 = qsub mx w.x0 ∧
          0 < qsub mx w.x0 ∧ qsub mx w.x0 < b) ∧
      (l.foldl (bestStep mx) (o, b)).2 ≤ b ∧
      (∀ w' ∈ l, 0 < qsub mx w'.x0 → qsub mx w'.x0 < b →
        (l.foldl (bestStep mx) (o, b)).2 ≤ qsub mx w'.x0 ∧
          ((l.foldl (bestStep mx) (o, b)).1).isSome) := by
  intro l
  induction l with
  | nil => intro o b; simp
  | cons cw rest ih =>
    intro o b
    by_cases hq : 0 < qsub mx cw.x0 ∧ qsub mx cw.x0 < b
    · have hstep : bestStep mx (o, b) cw = (some cw, qsub mx cw.x0) := by
        simp [bestStep, hq]
      have ihr := ih (some cw) (qsub mx cw.x0)
      simp only [List.foldl_cons, hstep]
      refine ⟨?_, ?_, ?_⟩
      · rcases ihr.1 with heq | ⟨w, hw, h1, h2, h3, h4⟩
        · right
          exact ⟨cw, List.mem_cons_self cw rest, by rw [heq], by rw [heq], hq.1, hq.2⟩
        · right
          exact ⟨w, List.mem_cons_of_mem cw hw, h1, h2, h3, lt_trans h4 hq.2⟩
      · exact le_trans ihr.2.1 (le_of_lt hq.2)
      · intro w' hw' hpos hlt
        rcases List.mem_cons.mp hw' with hcw | hrest
        · subst hcw
          constructor
          · exact ihr.2.1
          · rcases ihr.1 with heq | ⟨w, _, h1, _, _, _⟩
            · rw [heq]; rfl
            · rw [h1]; rfl
        · by_cases hd : qsub mx w'.x0 < qsub mx cw.x0
          · exact ihr.2.2 w' hrest hpos hd
          · constructor
            · exact le_trans ihr.2.1 (le_of_not_lt hd)
            · rcases ihr.1 with heq | ⟨w, _, h1, _, _, _⟩
              · rw [heq]; rfl
              · rw [h1]; rfl
    · have hstep : bestStep mx (o, b) cw = (o, b) := by
        simp only [bestStep]
        rw [if_neg hq]
      have ihr := ih o b
      simp only [List.foldl_cons, hstep]
      refine ⟨?_, ihr.2.1, ?_⟩
      · rcases ihr.1 with heq | ⟨w, hw, h1, h2, h3, h4⟩
        · left; exact heq
        · right; exact ⟨w, List.mem_cons_of_mem cw hw, h1, h2, h3, h4⟩
      · intro w' hw' hpos hlt
        rcases List.mem_cons.mp hw' with hcw | hrest
        · exact absurd ⟨by rwa [hcw] at hpos, by rwa [hcw] at hlt⟩ hq
        · exact ihr.2.2 w' hrest hpos hlt

theorem bestLeft_some_spec (bound : ℚ) (chords : List Word) (mx : ℚ) (w : Word)
    (h : bestLeft bound chords mx = some w) :
    w ∈ chords ∧ 0 < mx - w.x0 ∧ mx - w.x0 < bound ∧
      ∀ w' ∈ chords, 0 < mx - w'.x0 → mx - w'.x0 < bound → w'.x0 ≤ w.x0 := by
  have hc := bestFold_char mx chords none bound
  rcases hc.1 with heq | ⟨v, hv, h1, h2, h3, h4⟩
  · rw [bestLeft] at h
    rw [heq] at h
    exact absurd h (by simp)
  · rw [bestLeft] at h
    rw [h1] at h
    have hvw : v = w := by injection h
    subst hvw
    rw [qsub_eq] at h3 h4
    refine ⟨hv, h3, h4, ?_⟩
    intro w' hw' hpos hlt
    have := hc.2.2 w' hw' (by rwa [qsub_eq]) (by rwa [qsub_eq])
    rw [h2, qsub_eq, qsub_eq] at this
    have h5 := this.1
    linarith

theorem bestLeft_attaches (bound : ℚ) (chords : List Word) (mx : ℚ)
    (h : ∃ w ∈ chords, 0 < mx - w.x0 ∧ mx - w.x0 < bound) :
    ∃ w, bestLeft bound chords mx = some w := by
  rcases h with ⟨w, hw, hpos, hlt⟩
  have hc := bestFold_char mx chords none bound
  have h2 := (hc.2.2 w hw (by rwa [qsub_eq]) (by rwa [qsub_eq])).2
  rcases ho : (chords.foldl (bestStep mx) (none, bound)).1 with _ | v
  · rw [ho] at h2
    exact absurd h2 (by simp)
  · exact ⟨v, by rw [bestLeft, ho]⟩

theorem lookupQ_updAppend_same (m : List (ℚ × List Str)) (k : ℚ) (v : Str) :
    (lookupQ (updAppend m k v) k).getD [] = (lookupQ m k).getD [] ++ [v] := by
  induction m with
  | nil => simp [updAppend, lookupQ]
  | cons p rest ih =>
    by_cases h : p.1 = k
    · simp [updAppend, lookupQ, h]
    · simp [updAppend, lookupQ, h, ih]

theorem lookupQ_updAppend_other (m : List (ℚ × List Str)) (k' k : ℚ) (v : Str)
    (h : k' ≠ k) : lookupQ (updAppend m k' v) k = lookupQ m k := by
  induction m with
  | nil => simp [updAppend, lookupQ, h]
  | cons p rest ih =>
    by_cases hp : p.1 = k'
    · have hpk : ¬ p.1 = k := by rw [hp]; exact h
      simp [updAppend, lookupQ, hp, hpk, h]
    · by_cases hpk : p.1 = k
      · simp [updAppend, lookupQ, hp, hpk, h, Ne.symm h]
      · simp [updAppend, lookupQ, hp, hpk, h, ih]

theorem modFold_lookup (curves : Option (List Curve)) (chords : List Word) :
    ∀ (mods : List Word) (m0 : List (ℚ × List Str)) (s0 : List ℚ) (k : ℚ),
      (lookupQ ((mods.foldl (modStep curves chords) (m0, s0)).1) k).getD [] =
        (lookupQ m0 k).getD [] ++
          ((mods.filter (fun mw =>
            decide ((bestLeft 25 chords mw.x0).map Word.x0 = some k))).map Word.text) := by
  intro mods
  induction mods with
  | nil => intro m0 s0 k; simp
  | cons mw rest ih =>
    intro m0 s0 k
    rcases hb : bestLeft 25 chords mw.x0 with _ | cw
    · have hstep : modStep curves chords (m0, s0) mw = (m0, s0) := by
        simp only [modStep]
        rw [hb]
      have hpred : decide ((bestLeft 25 chords mw.x0).map Word.x0 = some k) = false := by
        rw [hb]; simp
      rw [List.foldl_cons, hstep, List.filter_cons]
      simp only [hpred]
      simp only [Bool.false_eq_true, if_false]
      exact ih m0 s0 k
    · obtain ⟨s1, hstep⟩ :
          ∃ s1, modStep curves chords (m0, s0) mw = (updAppend m0 cw.x0 mw.text, s1) := by
        simp only [modStep]
        rw [hb]
        exact ⟨_, rfl⟩
      by_cases hk : cw.x0 = k
      · have hpred : decide ((bestLeft 25 chords mw.x0).map Word.x0 = some k) = true := by
          rw [hb]; simp [hk]
        rw [List.foldl_cons, hstep, List.filter_cons]
        simp only [hpred, if_true]
        rw [ih (updAppend m0 cw.x0 mw.text) s1 k, hk, lookupQ_updAppend_same]
        simp
      · have hpred : decide ((bestLeft 25 chords mw.x0).map Word.x0 = some k) = false := by
          rw [hb]; simp [hk]
        rw [List.foldl_cons, hstep, List.filter_cons]
        simp only [hpred]
        simp only [Bool.false_eq_true, if_false]
        rw [ih (updAppend m0 cw.x0 mw.text) s1 k, lookupQ_updAppend_other _ _ _ _ hk]

/-- C7: modifier attachment.  (1) When `bestLeft` with bound 25 selects a
chord for a modifier at x `mx`, that chord lies strictly left of `mx` at
distance < 25 and has the largest x0 among all chords strictly left of
`mx` within distance < 25 — so a modifier at distance 24 attaches to the
nearest-left chord, and no chord at distance 25 or more is ever selected.
(2) When some chord lies strictly left within distance < 25, the modifier
does attach.  (3) The modifier texts attached to a chord x are exactly the
texts of the modifiers whose search selects that x, in encounter order. -/
theorem c7_modifier_attachment :
    (∀ (chords : List Word) (mx : ℚ) (w : Word),
       bestLeft 25 chords mx = some w →
         w ∈ chords ∧ 0 < mx - w.x0 ∧ mx - w.x0 < 25 ∧
           ∀ w' ∈ chords, 0 < mx - w'.x0 → mx - w'.x0 < 25 → w'.x0 ≤ w.x0) ∧
    (∀ (chords : List Word) (mx : ℚ),
       (∃ w ∈ chords, 0 < mx - w.x0 ∧ mx - w.x0 < 25) →
         ∃ w, bestLeft 25 chords mx = some w) ∧
    (∀ (curves : Option (List Curve)) (chords mods : List Word) (k : ℚ),
       (lookupQ ((mods.foldl (modStep curves chords) ([], [])).1) k).getD [] =
         ((mods.filter (fun mw =>
           decide ((bestLeft 25 chords mw.x0).map Word.x0 = some k))).map Word.text)) :=
  ⟨fun chords mx w h => bestLeft_some_spec 25 chords mx w h,
   fun chords mx h => bestLeft_attaches 25 chords mx h,
   fun curves chords mods k => by
     rw [modFold_lookup curves chords mods [] [] k]
     simp [lookupQ]⟩

/-- Witness for C7: with a single chord at x0 = 0, a modifier at x = 24
attaches to it (distance 24 < 25), and `bestLeft` reports that chord with
all the claimed properties. -/
theorem c7_modifier_attachment_witness :
    (∃ w, bestLeft 25
        [{ text := ['G'], x0 := 0, top := 0, bottom := 0, fontname := "Bold".data,
           size := 14 }] 24 = some w) ∧
    bestLeft 25
        [{ text := ['G'], x0 := 0, top := 0, bottom := 0, fontname := "Bold".data,
           size := 14 }] 25 = none := by
  constructor
  · exact c7_modifier_attachment.2.1
      [{ text := ['G'], x0 := 0, top := 0, bottom := 0, fontname := "Bold".data, size := 14 }]
      24
      ⟨{ text := ['G'], x0 := 0, top := 0, bottom := 0, fontname := "Bold".data, size := 14 },
        by simp, by norm_num⟩
  · decide

theorem lookupQ_updSet_same (m : List (ℚ × Str)) (k : ℚ) (v : Str) :
    lookupQ (updSet m k v) k = some v := by
  induction m with
  | nil => simp [updSet, lookupQ]
  | cons p rest ih =>
    by_cases h : p.1 = k
    · simp [updSet, lookupQ, h]
    · simp [updSet, lookupQ, h, ih]

theorem lookupQ_updSet_other (m : List (ℚ × Str)) (k' k : ℚ) (v : Str)
    (h : k' ≠ k) : lookupQ (updSet m k' v) k = lookupQ m k := by
  induction m with
  | nil => simp [updSet, lookupQ, h]
  | cons p rest ih =>
    by_cases hp : p.1 = k'
    · have hpk : ¬ p.1 = k := by rw [hp]; exact h
      simp [updSet, lookupQ, hp, hpk, h]
    · by_cases hpk : p.1 = k
      · simp [updSet, lookupQ, hp, hpk, h, Ne.symm h]
      · simp [updSet, lookupQ, hp, hpk, h, ih]

theorem bassFold_lookup (chords : List Word) :
    ∀ (bs : List Word) (m0 : List (ℚ × Str)) (k : ℚ),
      lookupQ (bs.foldl (bassStep chords) m0) k =
        (((bs.filter (fun bw =>
            decide ((bestLeft 50 chords bw.x0).map Word.x0 = some k))).getLast?).map
          Word.text).or (lookupQ m0 k) := by
  intro bs
  induction bs with
  | nil => intro m0 k; simp
  | cons bw rest ih =>
    intro m0 k
    rcases hb : bestLeft 50 chords bw.x0 with _ | cw
    · have hstep : bassStep chords m0 bw = m0 := by
        simp only [bassStep]
        rw [hb]
      have hpred : decide ((bestLeft 50 chords bw.x0).map Word.x0 = some k) = false := by
        rw [hb]; simp
      rw [List.foldl_cons, hstep, List.filter_cons]
      simp only [hpred, Bool.false_eq_true, if_false]
      exact ih m0 k
    · have hstep : bassStep chords m0 bw = updSet m0 cw.x0 bw.text := by
        simp only [bassStep]
        rw [hb]
      by_cases hk : cw.x0 = k
      · have hpred : decide ((bestLeft 50 chords bw.x0).map Word.x0 = some k) = true := by
          rw [hb]; simp [hk]
        rw [List.foldl_cons, hstep, List.filter_cons]
        simp only [hpred, if_true]
        rw [ih (updSet m0 cw.x0 bw.text) k, hk, lookupQ_updSet_same]
        rcases hf : rest.filter (fun bw =>
            decide ((bestLeft 50 chords bw.x0).map Word.x0 = some k)) with _ | ⟨x, xs⟩
        · rw [hf]
          simp
        · obtain ⟨y, hy⟩ : ∃ y, (x :: xs).getLast? = some y := by
            rcases hlast : (x :: xs).getLast? with _ | y
            · exact absurd hlast (by simp)
            · exact ⟨y, rfl⟩
          rw [hf, List.getLast?_cons_cons, hy]
          simp
      · have hpred : decide ((bestLeft 50 chords bw.x0).map Word.x0 = some k) = false := by
          rw [hb]; simp [hk]
        rw [List.foldl_cons, hstep, List.filter_cons]
        simp only [hpred, Bool.false_eq_true, if_false]
        rw [ih (updSet m0 cw.x0 bw.text) k, lookupQ_updSet_other _ _ _ _ hk]

theorem bassMaps_erase (chords : List Word) (l1 l2 : List Word) (b1 : Word) (k : ℚ)
    (h1 : (bestLeft 50 chords b1.x0).map Word.x0 = some k)
    (h2 : ∃ b ∈ l2, (bestLeft 50 chords b.x0).map Word.x0 = some k) :
    ∀ k', lookupQ ((l1 ++ b1 :: l2).foldl (bassStep chords) []) k' =
      lookupQ ((l1 ++ l2).foldl (bassStep chords) []) k' := by
  intro k'
  rw [bassFold_lookup, bassFold_lookup]
  have hnil : lookupQ ([] : List (ℚ × Str)) k' = none := rfl
  rw [hnil, Option.or_none, Option.or_none]
  rw [List.filter_append, List.filter_append, List.filter_cons]
  by_cases hk' : k' = k
  · subst hk'
    have hpred : decide ((bestLeft 50 chords b1.x0).map Word.x0 = some k') = true := by
      rw [h1]
      simp
    simp only [hpred, if_true]
    obtain ⟨b, hbmem, hbsel⟩ := h2
    rcases hf : l2.filter (fun bw =>
        decide ((bestLeft 50 chords bw.x0).map Word.x0 = some k')) with _ | ⟨x, xs⟩
    · exfalso
      have : b ∈ l2.filter (fun bw =>
          decide ((bestLeft 50 chords bw.x0).map Word.x0 = some k')) := by
        rw [List.mem_filter]
        exact ⟨hbmem, by rw [hbsel]; simp⟩
      rw [hf] at this
      exact absurd this (by simp)
    · obtain ⟨y, hy⟩ : ∃ y, (x :: xs).getLast? = some y := by
        rcases hlast : (x :: xs).getLast? with _ | y
        · exact absurd hlast (by simp)
        · exact ⟨y, rfl⟩
      rw [hf, List.getLast?_append, List.getLast?_append, List.getLast?_cons_cons, hy]
  · have hpred : decide ((bestLeft 50 chords b1.x0).map Word.x0 = some k') = false := by
      rw [h1]
      simp only [decide_eq_false_iff_not]
      intro hc
      exact hk' (by injection hc with h; exact h.symm)
    simp only [hpred, Bool.false_eq_true, if_false]

/-- C10: bass-note attachment overwrites.  (1) The bass suffix stored for a
chord x is exactly the text of the last bass token (in left-to-right row
order) whose nearest-left search selects that x — so when several bass
tokens select one chord, the later one silently overwrites the earlier.
(2) Deleting an overwritten bass token (one whose selected chord is also
selected by a later bass token) does not change the assembled chord list at
all: the overwritten text appears nowhere in the output. -/
theorem c10_bass_overwrite :
    (∀ (chords bs : List Word) (k : ℚ),
       lookupQ (bs.foldl (bassStep chords) []) k =
         ((bs.filter (fun bw =>
             decide ((bestLeft 50 chords bw.x0).map Word.x0 = some k))).getLast?).map
           Word.text) ∧
    (∀ (chords : List Word) (modMap : List (ℚ × List Str)) (sharps : List ℚ)
        (l1 l2 : List Word) (b1 : Word) (k : ℚ),
       (bestLeft 50 chords b1.x0).map Word.x0 = some k →
       (∃ b ∈ l2, (bestLeft 50 chords b.x0).map Word.x0 = some k) →
       buildChords chords modMap ((l1 ++ b1 :: l2).foldl (bassStep chords) []) sharps =
         buildChords chords modMap ((l1 ++ l2).foldl (bassStep chords) []) sharps) := by
  constructor
  · intro chords bs k
    rw [bassFold_lookup]
    simp [lookupQ]
  · intro chords modMap sharps l1 l2 b1 k h1 h2
    rw [buildChords, buildChords]
    apply List.map_congr_left
    intro cw _
    rw [bassMaps_erase chords l1 l2 b1 k h1 h2 cw.x0]

/-- The chord word of the C10 witness scenario. -/
def wersC : Word :=
  { text := ['C'], x0 := 0, top := 0, bottom := 0, fontname := "Bold".data, size := 14 }

/-- The first (overwritten) bass word of the C10 witness scenario. -/
def wersE : Word :=
  { text := "/E".data, x0 := 10, top := 0, bottom := 0, fontname := "Bold".data, size := 14 }

/-- The second (surviving) bass word of the C10 witness scenario. -/
def wersF : Word :=
  { text := "/F".data, x0 := 20, top := 0, bottom := 0, fontname := "Bold".data, size := 14 }

/-- Witness for C10: one chord at x0 = 0 and two bass tokens `/E` then
`/F`, both within 50 to its right: deleting the overwritten `/E` token
leaves the assembled chord list unchanged. -/
theorem c10_bass_overwrite_witness :
    buildChords [wersC] [] (([wersE, wersF] : List Word).foldl (bassStep [wersC]) []) [] =
      buildChords [wersC] [] (([wersF] : List Word).foldl (bassStep [wersC]) []) [] :=
  c10_bass_overwrite.2 [wersC] [] [] [] [wersF] wersE 0 (by decide)
    ⟨wersF, by decide, by decide⟩

/-- The texts of the modifiers whose nearest-left search (bound 25)
selects the chord x `k`, in row order: by `modFold_lookup` this is exactly
the modifier list the row pass attaches to that chord. -/
def attachedModTexts (row : List Word) (k : ℚ) : List Str :=
  ((rowMods row).filter (fun mw =>
    decide ((bestLeft 25 (rowChords row) mw.x0).map Word.x0 = some k))).map Word.text

/-- The text of the last bass token whose nearest-left search (bound 50)
selects the chord x `k` (empty when none): by `bassFold_lookup` this is
exactly the bass suffix the row pass attaches to that chord. -/
def attachedBassText (row : List Word) (k : ℚ) : Str :=
  (((rowBass row).filter (fun bw =>
    decide ((bestLeft 50 (rowChords row) bw.x0).map Word.x0 = some k))).getLast?.map
      Word.text).getD []

/-- The chord span the row pass produces for the chord word `cw`: the
composite is root text, then `#` when a sharp was detected, then the
attached modifier texts in row order, then the bass suffix — and
`normalize_chord` is applied to the whole composite. -/
def compositeSpan (curves : Option (List Curve)) (row : List Word) (cw : Word) : Span :=
  { text := normalize_chord
      (cw.text ++ (if memQ cw.x0 (rowSharps curves row) then ['#'] else []) ++
        joinSep [] (attachedModTexts row cw.x0) ++ attachedBassText row cw.x0),
    x := cw.x0 }

/-- C3 (amended): every assembled chord of a content line is built in the
order root text, then `#` when a sharp was detected, then the attached
modifier texts in left-to-right token order (exactly the modifiers whose
nearest-left search selects this chord), then the bass suffix (the last
selecting bass token's text) — and the ♯/♭-to-#/b and space-stripping
normalization is applied to the WHOLE composite, not only to the root
token text. -/
theorem c3_composite_normalization (curves : Option (List Curve)) (sec : PSection)
    (row : List Word) (hch : rowChords row ≠ []) :
    (processRow curves sec row).lines =
      sec.lines ++ [PLine.content
        ((rowChords row).map (compositeSpan curves row))
        ((rowLyrics row).map (fun w => { text := w.text, x := w.x0 }))] := by
  have hne : buildChords (rowChords row) (rowModState curves row).1
      (rowBassMap row) (rowSharps curves row) ≠ [] := by
    rw [buildChords]
    intro h
    exact hch (List.map_eq_nil_iff.mp h)
  have hmap : (buildChords (rowChords row) (rowModState curves row).1
        (rowBassMap row) (rowSharps curves row)).map
        (fun p => ({ text := normalize_chord p.1, x := p.2 } : Span)) =
      (rowChords row).map (compositeSpan curves row) := by
    rw [buildChords, List.map_map]
    apply List.map_congr_left
    intro cw _
    have hm : (lookupQ (rowModState curves row).1 cw.x0).getD [] =
        attachedModTexts row cw.x0 := by
      rw [rowModState, modFold_lookup, attachedModTexts]
      simp [lookupQ]
    have hbq : (lookupQ (rowBassMap row) cw.x0).getD [] = attachedBassText row cw.x0 := by
      rw [rowBassMap, bassFold_lookup, attachedBassText]
      have hnil : lookupQ ([] : List (ℚ × Str)) cw.x0 = none := rfl
      rw [hnil, Option.or_none]
    simp only [Function.comp_apply, compositeSpan, Span.mk.injEq]
    refine ⟨?_, trivial⟩
    rw [hm, hbq]
  simp only [processRow]
  rw [if_neg (fun h => hne h.2.1), if_pos (Or.inl hne)]
  simp only [hmap]

/-- The chord word of the C3 scenario. -/
def cexC : Word :=
  { text := ['C'], x0 := 100, top := 130, bottom := 140, fontname := "Bold".data,
    size := mkRat 27 2 }

/-- The bass word (with a `♯` in its text) of the C3 scenario. -/
def cexBass : Word :=
  { text := "/C♯".data, x0 := 120, top := 130, bottom := 140, fontname := "Bold".data,
    size := mkRat 27 2 }

/-- The badge word of the C3 scenario. -/
def cexBadge : Word :=
  { text := ['A'], x0 := 10, top := 100, bottom := 110, fontname := "Bold".data, size := 10 }

/-- The section-name word of the C3 scenario. -/
def cexName : Word :=
  { text := "CHORUS".data, x0 := 30, top := 100, bottom := 112, fontname := "Bold".data,
    size := 15 }

/-- C3 counterexample: a chord `C` with bass token `/C♯` parses to the
composite text `C/C#` — the accidental inside the bass suffix was
normalized — whereas the claim (normalization of the root token only)
demands `C` ++ `/C♯` = `C/C♯`. -/
theorem c3_counterexample :
    parse_column [cexBadge, cexName, cexC, cexBass] 0 none =
      [{ name := "Chorus".data, dynamics := [],
         lines := [PLine.content [⟨"C/C#".data, 100⟩] []] }] ∧
    "C/C#".data ≠ normalize_chord (['C']) ++ "/C♯".data := by
  decide

/-- Witness for C3: the composite-order theorem applied to the concrete
chord-plus-bass row. -/
theorem c3_composite_normalization_witness :
    (processRow none { name := "Chorus".data, dynamics := [], lines := [] }
        [cexC, cexBass]).lines =
      [PLine.content
        [⟨normalize_chord (cexC.text ++ [] ++ joinSep [] [] ++ "/C♯".data), 100⟩] []] := by
  have h := c3_composite_normalization none
    { name := "Chorus".data, dynamics := [], lines := [] } [cexC, cexBass] (by decide)
  rw [h]
  decide

theorem mem_closeSec (done : List PSection) (cur : Option PSection) (s : PSection)
    (hs : s ∈ closeSec done cur) : s ∈ done ∨ s.lines ≠ [] := by
  rcases cur with _ | s0
  · exact Or.inl hs
  · simp only [closeSec] at hs
    by_cases hl : s0.lines ≠ []
    · rw [if_pos hl] at hs
      rcases List.mem_append.mp hs with hm | hm
      · exact Or.inl hm
      · right
        rw [List.mem_singleton.mp hm]
        exact hl
    · rw [if_neg hl] at hs
      exact Or.inl hs

theorem stepRow_fst (curves : Option (List Curve)) (done : List PSection)
    (cur : Option PSection) (row : List Word) :
    (stepRow curves (done, cur) row).1 = closeSec done cur ∨
      (stepRow curves (done, cur) row).1 = done := by
  rcases row with _ | ⟨w, ws⟩
  · exact Or.inr rfl
  · by_cases hh : isHeaderRow (rowRoles (w :: ws)) = true
    · left
      simp only [stepRow, if_pos hh]
    · right
      rcases cur with _ | s0
      · simp only [stepRow, if_neg hh]
      · simp only [stepRow, if_neg hh]

theorem stepRow_keeps_nonempty (curves : Option (List Curve)) :
    ∀ (rows : List (List Word)) (done : List PSection) (cur : Option PSection),
      (∀ s ∈ done, s.lines ≠ []) →
      ∀ s ∈ (rows.foldl (stepRow curves) (done, cur)).1, s.lines ≠ [] := by
  intro rows
  induction rows with
  | nil => intro done cur h; exact h
  | cons row rest ih =>
    intro done cur h
    rw [List.foldl_cons]
    have h1 : ∀ s ∈ (stepRow curves (done, cur) row).1, s.lines ≠ [] := by
      rcases stepRow_fst curves done cur row with he | he
      · rw [he]
        intro s hs
        rcases mem_closeSec done cur s hs with hm | hm
        · exact h s hm
        · exact hm
      · rw [he]
        exact h
    have h2 := ih (stepRow curves (done, cur) row).1 (stepRow curves (done, cur) row).2 h1
    rw [Prod.mk.eta] at h2
    exact h2

theorem mergeGo_ne_nil : ∀ (l : List PLine) (p : Option (List Span)),
    l ≠ [] ∨ p ≠ none → mergeGo l p ≠ [] := by
  intro l
  induction l with
  | nil =>
    intro p hp
    rcases p with _ | cs
    · rcases hp with h | h
      · exact absurd rfl h
      · exact absurd rfl h
    · simp [mergeGo]
  | cons hd rest ih =>
    intro p hp
    rcases hd with t | ⟨cs2, ls2⟩ <;> rcases p with _ | cs
    · simp [mergeGo]
    · simp [mergeGo]
    · simp only [mergeGo]
      by_cases hc : cs2 ≠ [] ∧ ls2 = []
      · rw [if_pos hc]
        exact ih (some cs2) (Or.inr (by simp))
      · rw [if_neg hc]
        simp
    · simp only [mergeGo]
      by_cases hc : ls2 ≠ []
      · rw [if_pos hc]
        simp
      · rw [if_neg hc]
        simp

/-- C9 (amended): every section returned by `parse_column` — and hence
every section that reaches emission — has at least one line: a section
whose line list is empty when the next header row opens or when the column
ends is dropped.  (The name, however, can be empty, see the
counterexample.) -/
theorem c9_emitted_sections_have_lines (words : List Word) (colx : ℚ)
    (curves : Option (List Curve)) (s : PSection)
    (hs : s ∈ parse_column words colx curves) : s.lines ≠ [] := by
  rcases words with _ | ⟨w, ws⟩
  · exact absurd hs (by simp [parse_column])
  · simp only [parse_column] at hs
    rcases List.mem_map.mp hs with ⟨s0, hs0, hmk⟩
    have h0 : s0.lines ≠ [] := by
      rcases mem_closeSec _ _ s0 hs0 with hm | hm
      · exact stepRow_keeps_nonempty curves _ [] none (by simp) s0 hm
      · exact hm
    rw [← hmk]
    show mergeLines s0.lines ≠ []
    rw [mergeLines]
    exact mergeGo_ne_nil s0.lines none (Or.inl h0)

/-- The rule-line section-name word of the C9 counterexample. -/
def cexRule : Word :=
  { text := "──".data, x0 := 30, top := 100, bottom := 112, fontname := "Bold".data,
    size := 15 }

/-- The lyric word of the C9 counterexample. -/
def cexLyric : Word :=
  { text := "la".data, x0 := 10, top := 130, bottom := 140, fontname := "Regular".data,
    size := mkRat 27 2 }

/-- C9 counterexample: a header row whose section-name token is a pure
rule line `──` formats to the empty name, and the resulting section (with
one lyric line) reaches emission with `name = ""` — the claimed invariant
"every Section that reaches emission has a non-empty name" fails. -/
theorem c9_counterexample :
    (parse_column [cexBadge, cexRule, cexLyric] 0 none).map PSection.name = [[]] ∧
    parse_column [cexBadge, cexRule, cexLyric] 0 none ≠ [] := by
  decide

/-- Witness for C9: the section produced from the `──`-named header and
one lyric row has a non-empty line list. -/
theorem c9_emitted_sections_have_lines_witness :
    ({ name := [], dynamics := [],
       lines := [PLine.content [] [⟨"la".data, 10⟩]] } : PSection).lines ≠ [] :=
  c9_emitted_sections_have_lines [cexBadge, cexRule, cexLyric] 0 none
    { name := [], dynamics := [], lines := [PLine.content [] [⟨"la".data, 10⟩]] }
    (by decide)

theorem charLookup_mem (m : List (Char × Char)) (k v : Char)
    (h : List.lookup k m = some v) : (k, v) ∈ m := by
  induction m with
  | nil => exact absurd h (by simp)
  | cons p rest ih =>
    rcases p with ⟨a, b⟩
    rw [List.lookup] at h
    by_cases hk : k == a
    · rw [hk] at h
      simp only [Option.some.injEq] at h
      rw [beq_iff_eq] at hk
      subst hk
      subst h
      exact List.mem_cons_self _ _
    · rw [Bool.not_eq_true] at hk
      rw [hk] at h
      exact List.mem_cons_of_mem _ (ih h)

theorem lowChar_lowChar (c : Char) : lowChar (lowChar c) = lowChar c := by
  rcases h : List.lookup c caseRev with _ | v
  · simp [lowChar, h]
  · have hm := charLookup_mem _ _ _ h
    have hfin : ∀ p ∈ caseRev, List.lookup p.2 caseRev = none := by decide
    simp [lowChar, h, hfin (c, v) hm]

theorem upChar_upChar (c : Char) : upChar (upChar c) = upChar c := by
  rcases h : List.lookup c casePairs with _ | v
  · simp [upChar, h]
  · have hm := charLookup_mem _ _ _ h
    have hfin : ∀ p ∈ casePairs, List.lookup p.2 casePairs = none := by decide
    simp [upChar, h, hfin (c, v) hm]

theorem upChar_lowChar (c : Char) : upChar (lowChar c) = upChar c := by
  rcases h : List.lookup c caseRev with _ | v
  · simp [lowChar, h]
  · have hm := charLookup_mem _ _ _ h
    have hfin : ∀ p ∈ caseRev, upChar p.2 = upChar p.1 := by decide
    have := hfin (c, v) hm
    simp only [lowChar, h, Option.getD_some]
    exact this

theorem classPres_low (q : Char → Bool) (hq : ∀ p ∈ caseRev, q p.1 = q p.2) :
    ∀ c, q (lowChar c) = q c := by
  intro c
  rcases h : List.lookup c caseRev with _ | v
  · simp [lowChar, h]
  · have hm := charLookup_mem _ _ _ h
    simp only [lowChar, h, Option.getD_some]
    exact (hq (c, v) hm).symm

theorem classPres_up (q : Char → Bool) (hq : ∀ p ∈ casePairs, q p.1 = q p.2) :
    ∀ c, q (upChar c) = q c := by
  intro c
  rcases h : List.lookup c casePairs with _ | v
  · simp [upChar, h]
  · have hm := charLookup_mem _ _ _ h
    simp only [upChar, h, Option.getD_some]
    exact (hq (c, v) hm).symm

theorem ws_low (c : Char) : Char.isWhitespace (lowChar c) = Char.isWhitespace c :=
  classPres_low Char.isWhitespace (by decide) c

theorem ws_up (c : Char) : Char.isWhitespace (upChar c) = Char.isWhitespace c :=
  classPres_up Char.isWhitespace (by decide) c

theorem digit_low (c : Char) : Char.isDigit (lowChar c) = Char.isDigit c :=
  classPres_low Char.isDigit (by decide) c

theorem digit_up (c : Char) : Char.isDigit (upChar c) = Char.isDigit c :=
  classPres_up Char.isDigit (by decide) c

theorem rule_low (c : Char) : isRuleC (lowChar c) = isRuleC c :=
  classPres_low isRuleC (by decide) c

theorem rule_up (c : Char) : isRuleC (upChar c) = isRuleC c :=
  classPres_up isRuleC (by decide) c

theorem letter_low (c : Char) : isLetterC (lowChar c) = isLetterC c :=
  classPres_low isLetterC (by decide) c

theorem letter_up (c : Char) : isLetterC (upChar c) = isLetterC c :=
  classPres_up isLetterC (by decide) c

theorem titleAux_map_class {β : Type} (q : Char → β) (hql : ∀ c, q (lowChar c) = q c)
    (hqu : ∀ c, q (upChar c) = q c) :
    ∀ (l : Str) (f : Bool), (titleAux f l).map q = l.map q := by
  intro l
  induction l with
  | nil => intro f; rfl
  | cons c cs ih =>
    intro f
    by_cases hc : isLetterC c = true
    · simp only [titleAux, if_pos hc, List.map_cons, ih true]
      by_cases hf : f = true
      · rw [hf]
        simp [hql c]
      · rw [Bool.not_eq_true] at hf
        rw [hf]
        simp [hqu c]
    · simp only [titleAux, if_neg hc, List.map_cons, ih false]

theorem titleAux_idem :
    ∀ (l : Str) (f : Bool), titleAux f (titleAux f l) = titleAux f l := by
  intro l
  induction l with
  | nil => intro f; rfl
  | cons c cs ih =>
    intro f
    by_cases hc : isLetterC c = true
    · cases f
      · simp [titleAux, hc, letter_up, upChar_upChar, ih]
      · simp [titleAux, hc, letter_low, lowChar_lowChar, ih]
    · simp [titleAux, hc, ih]

theorem pyTitle_idem (l : Str) : pyTitle (pyTitle l) = pyTitle l :=
  titleAux_idem l false

theorem upperStr_pyTitle (l : Str) : upperStr (pyTitle l) = upperStr l := by
  have h := titleAux_map_class upChar upChar_lowChar upChar_upChar l false
  simpa [upperStr, pyTitle] using h

/-- Does the first character (when any) satisfy `q`? -/
def headOkB (q : Char → Bool) : Str → Bool
  | [] => true
  | c :: _ => q c

/-- Does the last character (when any) satisfy `q`? -/
def lastOkB (q : Char → Bool) (l : Str) : Bool :=
  match l.getLast? with
  | none => true
  | some c => q c

theorem getLast?_mem' {α : Type} : ∀ (l : List α) (a : α), l.getLast? = some a → a ∈ l := by
  intro l
  induction l with
  | nil => intro a h; exact absurd h (by simp)
  | cons c cs ih =>
    intro a h
    rcases cs with _ | ⟨c2, cs2⟩
    · simp only [List.getLast?_singleton, Option.some.injEq] at h
      rw [h]
      exact List.mem_cons_self _ _
    · rw [List.getLast?_cons_cons] at h
      exact List.mem_cons_of_mem _ (ih a h)

theorem digit_not_ws (c : Char) (h : Char.isDigit c = true) :
    Char.isWhitespace c = false := by
  rcases hw : Char.isWhitespace c with _ | _
  · rfl
  · exfalso
    have hw2 := hw
    simp only [Char.isWhitespace, Bool.or_eq_true, decide_eq_true_eq] at hw2
    rcases hw2 with ((h2 | h2) | h2) | h2 <;> (subst h2; exact absurd h (by decide))

theorem digit_not_rule (c : Char) (h : Char.isDigit c = true) : isRuleC c = false := by
  rcases hr : isRuleC c with _ | _
  · rfl
  · exfalso
    have hr2 : c = '─' ∨ c = '━' ∨ c = '—' ∨ c = '–' ∨ c = '-' := by
      simpa [isRuleC, ruleChars, List.contains, beq_iff_eq] using hr
    rcases hr2 with h2 | h2 | h2 | h2 | h2 <;> (subst h2; exact absurd h (by decide))

theorem spanRev_cons (p : Char → Bool) (c : Char) (cs : Str) :
    spanRev p (c :: cs) =
      (if (spanRev p cs).1 = [] ∧ p c = true then ([], c :: (spanRev p cs).2)
       else (c :: (spanRev p cs).1, (spanRev p cs).2)) := rfl

theorem spanRev_parts (p : Char → Bool) :
    ∀ l : Str, (spanRev p l).1 ++ (spanRev p l).2 = l := by
  intro l
  induction l with
  | nil => rfl
  | cons c cs ih =>
    rw [spanRev_cons]
    by_cases hc : (spanRev p cs).1 = [] ∧ p c = true
    · rw [if_pos hc]
      simp only [List.nil_append]
      conv_rhs => rw [← ih, hc.1]
      rw [List.nil_append]
    · rw [if_neg hc]
      simp only [List.cons_append, ih]

theorem spanRev_run_all (p : Char → Bool) :
    ∀ l : Str, ∀ x ∈ (spanRev p l).2, p x = true := by
  intro l
  induction l with
  | nil => intro x hx; exact absurd hx (by simp [spanRev])
  | cons c cs ih =>
    intro x hx
    rw [spanRev_cons] at hx
    by_cases hc : (spanRev p cs).1 = [] ∧ p c = true
    · rw [if_pos hc] at hx
      rcases List.mem_cons.mp hx with h | h
      · rw [h]; exact hc.2
      · exact ih x h
    · rw [if_neg hc] at hx
      exact ih x hx

theorem spanRev_pre_span (p : Char → Bool) :
    ∀ l : Str, spanRev p ((spanRev p l).1) = ((spanRev p l).1, []) := by
  intro l
  induction l with
  | nil => rfl
  | cons c cs ih =>
    rw [spanRev_cons]
    by_cases hc : (spanRev p cs).1 = [] ∧ p c = true
    · rw [if_pos hc]
      rfl
    · rw [if_neg hc]
      simp only
      rw [spanRev_cons, ih]
      rw [if_neg (by intro h2; exact hc ⟨h2.1, h2.2⟩)]

theorem spanRev_eq_self (p : Char → Bool) :
    ∀ l : Str, lastOkB (fun c => !p c) l = true → spanRev p l = (l, []) := by
  intro l
  induction l with
  | nil => intro _; rfl
  | cons c cs ih =>
    intro h
    rcases cs with _ | ⟨c2, cs2⟩
    · have hc : (!p c) = true := by
        simpa [lastOkB] using h
      rw [spanRev_cons]
      rw [if_neg (by intro h2; rw [h2.2] at hc; exact absurd hc (by decide))]
      rfl
    · have h2 : lastOkB (fun c => !p c) (c2 :: cs2) = true := by
        simp only [lastOkB, List.getLast?_cons_cons] at h ⊢
        exact h
      have ih2 := ih h2
      rw [spanRev_cons, ih2]
      rw [if_neg (by intro h3; exact absurd h3.1 (by simp))]

theorem spanRev_last_false (p : Char → Bool) :
    ∀ l : Str, spanRev p l = (l, []) → lastOkB (fun c => !p c) l = true := by
  intro l
  induction l with
  | nil => intro _; rfl
  | cons c cs ih =>
    intro h
    rw [spanRev_cons] at h
    by_cases hc : (spanRev p cs).1 = [] ∧ p c = true
    · rw [if_pos hc] at h
      exact absurd (congrArg Prod.fst h) (by simp)
    · rw [if_neg hc] at h
      have h1 : (spanRev p cs).1 = cs := by
        have := congrArg Prod.fst h
        simpa using this
      have h2 : (spanRev p cs).2 = [] := by
        have := congrArg Prod.snd h
        simpa using this
      rcases cs with _ | ⟨c2, cs2⟩
      · have hpc : p c = false := by
          rcases hp : p c with _ | _
          · rfl
          · exact absurd ⟨h1, hp⟩ hc
        simp [lastOkB, hpc]
      · have ih2 := ih (by rw [Prod.ext_iff]; exact ⟨h1, h2⟩)
        simp only [lastOkB, List.getLast?_cons_cons] at ih2 ⊢
        exact ih2

theorem spanRev_all_run (p : Char → Bool) :
    ∀ l : Str, (∀ y ∈ l, p y = true) → spanRev p l = ([], l) := by
  intro l
  induction l with
  | nil => intro _; rfl
  | cons c cs ih =>
    intro h
    have ih2 := ih (fun y hy => h y (List.mem_cons_of_mem _ hy))
    rw [spanRev_cons, ih2]
    rw [if_pos ⟨rfl, h c (List.mem_cons_self _ _)⟩]

theorem spanRev_append_run (p : Char → Bool) (ys : Str) (hys : ∀ y ∈ ys, p y = true) :
    ∀ xs : Str, spanRev p xs = (xs, []) → spanRev p (xs ++ ys) = (xs, ys) := by
  intro xs
  induction xs with
  | nil => intro _; simpa using spanRev_all_run p ys hys
  | cons c cs ih =>
    intro h
    rw [spanRev_cons] at h
    by_cases hc : (spanRev p cs).1 = [] ∧ p c = true
    · rw [if_pos hc] at h
      exact absurd (congrArg Prod.fst h) (by simp)
    · rw [if_neg hc] at h
      have h1 : (spanRev p cs).1 = cs := by simpa using congrArg Prod.fst h
      have h2 : (spanRev p cs).2 = [] := by simpa using congrArg Prod.snd h
      have ih2 := ih (by rw [Prod.ext_iff]; exact ⟨h1, h2⟩)
      have hcond : ¬(((cs, ys) : Str × Str).1 = [] ∧ p c = true) := by
        intro h3
        rcases hcs : cs with _ | ⟨c2, cs2⟩
        · rw [hcs] at h1 hc
          have hpc : p c = false := by
            rcases hp : p c with _ | _
            · rfl
            · exact absurd ⟨h1, hp⟩ hc
          rw [h3.2] at hpc
          exact absurd hpc (by decide)
        · rw [hcs] at h3
          exact absurd h3.1 (by simp)
      rw [List.cons_append, spanRev_cons, ih2, if_neg hcond]

theorem dropWhile_head_false (p : Char → Bool) :
    ∀ l : Str, ∀ x, (l.dropWhile p).head? = some x → p x = false := by
  intro l
  induction l with
  | nil => intro x hx; exact absurd hx (by simp)
  | cons c cs ih =>
    intro x hx
    rw [List.dropWhile_cons] at hx
    by_cases hc : p c = true
    · rw [if_pos hc] at hx
      exact ih x hx
    · rw [if_neg hc] at hx
      simp only [List.head?_cons, Option.some.injEq] at hx
      rw [← hx]
      exact Bool.not_eq_true _ ▸ hc

theorem dropWhile_eq_self (p : Char → Bool) (l : Str)
    (h : headOkB (fun c => !p c) l = true) : l.dropWhile p = l := by
  rcases l with _ | ⟨c, cs⟩
  · rfl
  · have hc : (!p c) = true := by simpa [headOkB] using h
    rw [List.dropWhile_cons, if_neg (by rw [Bool.not_eq_true' ] at hc; simp [hc])]

theorem pyStrip_headOk (l : Str) :
    headOkB (fun c => !Char.isWhitespace c) (pyStrip l) = true := by
  rw [pyStrip, trimR, trimL]
  rcases hp : (spanRev Char.isWhitespace (l.dropWhile Char.isWhitespace)).1 with _ | ⟨c, cs⟩
  · rfl
  · have hparts := spanRev_parts Char.isWhitespace (l.dropWhile Char.isWhitespace)
    rw [hp] at hparts
    have hhead : (l.dropWhile Char.isWhitespace).head? = some c := by
      rw [← hparts]
      rfl
    have := dropWhile_head_false Char.isWhitespace l c hhead
    simp [headOkB, this]

theorem pyStrip_lastOk (l : Str) :
    lastOkB (fun c => !Char.isWhitespace c) (pyStrip l) = true := by
  rw [pyStrip, trimR, trimL]
  apply spanRev_last_false
  exact spanRev_pre_span Char.isWhitespace (l.dropWhile Char.isWhitespace)

theorem pyStrip_eq_self (l : Str)
    (hh : headOkB (fun c => !Char.isWhitespace c) l = true)
    (hl : lastOkB (fun c => !Char.isWhitespace c) l = true) : pyStrip l = l := by
  rw [pyStrip, trimL, dropWhile_eq_self Char.isWhitespace l hh, trimR,
    spanRev_eq_self Char.isWhitespace l hl]

theorem lastOkB_eq (q : Char → Bool) (l : Str) :
    lastOkB q l = (l.getLast?.map q).getD true := by
  rcases h : l.getLast? with _ | c <;> simp [lastOkB, h]

theorem headOkB_eq (q : Char → Bool) (l : Str) :
    headOkB q l = (l.head?.map q).getD true := by
  rcases l with _ | ⟨c, cs⟩ <;> simp [headOkB]

theorem lastOkB_title (q : Char → Bool) (hql : ∀ c, q (lowChar c) = q c)
    (hqu : ∀ c, q (upChar c) = q c) (l : Str) :
    lastOkB q (pyTitle l) = lastOkB q l := by
  rw [lastOkB_eq, lastOkB_eq, ← List.getLast?_map, ← List.getLast?_map]
  rw [show (pyTitle l).map q = l.map q from titleAux_map_class q hql hqu l false]

theorem headOkB_title (q : Char → Bool) (hql : ∀ c, q (lowChar c) = q c)
    (hqu : ∀ c, q (upChar c) = q c) (l : Str) :
    headOkB q (pyTitle l) = headOkB q l := by
  rw [headOkB_eq, headOkB_eq, ← List.head?_map, ← List.head?_map]
  rw [show (pyTitle l).map q = l.map q from titleAux_map_class q hql hqu l false]

theorem lastOkB_of_all (q : Char → Bool) (l : Str) (h : ∀ y ∈ l, q y = true) :
    lastOkB q l = true := by
  rw [lastOkB_eq]
  rcases hy : l.getLast? with _ | y
  · rfl
  · simp [h y (getLast?_mem' l y hy)]

theorem lookupStr_mem (m : List (Str × Str)) (k v : Str)
    (h : lookupStr m k = some v) : (k, v) ∈ m := by
  induction m with
  | nil => exact absurd h (by simp [lookupStr])
  | cons p rest ih =>
    rcases p with ⟨a, b⟩
    rw [lookupStr] at h
    by_cases hk : a = k
    · rw [if_pos hk] at h
      simp only [Option.some.injEq] at h
      rw [← hk, ← h]
      exact List.mem_cons_self _ _
    · rw [if_neg hk] at h
      exact List.mem_cons_of_mem _ (ih h)

theorem headOkB_append (q : Char → Bool) (M z : Str) (h : M ≠ []) :
    headOkB q (M ++ z) = headOkB q M := by
  rcases M with _ | ⟨c, cs⟩
  · exact absurd rfl h
  · rfl

theorem getLast?_append_cons_ne {α : Type} (M : List α) (a : α) (run : List α)
    (h : run ≠ []) : (M ++ a :: run).getLast? = run.getLast? := by
  rcases run with _ | ⟨r, rs⟩
  · exact absurd rfl h
  · rw [List.getLast?_append, List.getLast?_cons_cons]
    obtain ⟨y, hy⟩ : ∃ y, (r :: rs).getLast? = some y := by
      rcases hz : (r :: rs).getLast? with _ | y
      · exact absurd (List.getLast?_eq_none_iff.mp hz) (by simp)
      · exact ⟨y, rfl⟩
    rw [hy]
    rfl

theorem format_eq (name : Str) :
    format_section_name name =
      ((lookupStr nameMap
          (upperStr (numSplit (pyStrip (trimR isRuleC (pyStrip name)))).1)).getD
        (pyTitle (numSplit (pyStrip (trimR isRuleC (pyStrip name)))).1)) ++
        (numSplit (pyStrip (trimR isRuleC (pyStrip name)))).2 := rfl

theorem numSplit_eq (n : Str) :
    numSplit n =
      (if (spanRev Char.isDigit n).2 = [] then (n, [])
       else (pyStrip (spanRev Char.isDigit n).1, ' ' :: (spanRev Char.isDigit n).2)) := rfl

theorem bang_ws_low (c : Char) : (!Char.isWhitespace (lowChar c)) = !Char.isWhitespace c := by
  rw [ws_low]

theorem bang_ws_up (c : Char) : (!Char.isWhitespace (upChar c)) = !Char.isWhitespace c := by
  rw [ws_up]

theorem bang_digit_low (c : Char) : (!Char.isDigit (lowChar c)) = !Char.isDigit c := by
  rw [digit_low]

theorem bang_digit_up (c : Char) : (!Char.isDigit (upChar c)) = !Char.isDigit c := by
  rw [digit_up]

theorem format_fix_title (n2 : Str)
    (hh : headOkB (fun c => !Char.isWhitespace c) n2 = true)
    (hw : lastOkB (fun c => !Char.isWhitespace c) n2 = true)
    (hd : lastOkB (fun c => !Char.isDigit c) n2 = true)
    (hlk : lookupStr nameMap (upperStr n2) = none)
    (hr : lastOkB (fun c => !isRuleC c) (pyTitle n2) = true) :
    format_section_name (pyTitle n2) = pyTitle n2 := by
  have hmh : headOkB (fun c => !Char.isWhitespace c) (pyTitle n2) = true := by
    rw [headOkB_title _ bang_ws_low bang_ws_up]
    exact hh
  have hmw : lastOkB (fun c => !Char.isWhitespace c) (pyTitle n2) = true := by
    rw [lastOkB_title _ bang_ws_low bang_ws_up]
    exact hw
  have hmd : lastOkB (fun c => !Char.isDigit c) (pyTitle n2) = true := by
    rw [lastOkB_title _ bang_digit_low bang_digit_up]
    exact hd
  have h1 : pyStrip (pyTitle n2) = pyTitle n2 := pyStrip_eq_self _ hmh hmw
  have h2 : trimR isRuleC (pyTitle n2) = pyTitle n2 := by
    rw [trimR, spanRev_eq_self isRuleC _ hr]
  have h3 : numSplit (pyTitle n2) = (pyTitle n2, []) := by
    rw [numSplit_eq, spanRev_eq_self Char.isDigit _ hmd]
    simp
  have h4 : lookupStr nameMap (upperStr (pyTitle n2)) = none := by
    rw [upperStr_pyTitle, hlk]
  rw [format_eq, h1, h2, h1, h3]
  simp [h4, pyTitle_idem]

theorem format_fix_num_nil (run : Str) (hrun : run ≠ [])
    (hall : ∀ y ∈ run, Char.isDigit y = true) :
    format_section_name (' ' :: run) = ' ' :: run := by
  have hwsrun : lastOkB (fun c => !Char.isWhitespace c) run = true :=
    lastOkB_of_all _ run (fun y hy => by rw [digit_not_ws y (hall y hy)]; rfl)
  have hrlrun : lastOkB (fun c => !isRuleC c) run = true :=
    lastOkB_of_all _ run (fun y hy => by rw [digit_not_rule y (hall y hy)]; rfl)
  have hdrop : List.dropWhile Char.isWhitespace (' ' :: run) = run := by
    rw [List.dropWhile_cons, if_pos (by decide)]
    apply dropWhile_eq_self
    rcases run with _ | ⟨r, rs⟩
    · rfl
    · have := digit_not_ws r (hall r (List.mem_cons_self _ _))
      simp [headOkB, this]
  have h1 : pyStrip (' ' :: run) = run := by
    rw [pyStrip, trimL, hdrop, trimR, spanRev_eq_self Char.isWhitespace run hwsrun]
  have h2 : trimR isRuleC run = run := by
    rw [trimR, spanRev_eq_self isRuleC run hrlrun]
  have h3 : pyStrip run = run := by
    apply pyStrip_eq_self
    · rcases run with _ | ⟨r, rs⟩
      · rfl
      · have := digit_not_ws r (hall r (List.mem_cons_self _ _))
        simp [headOkB, this]
    · exact hwsrun
  have h4 : numSplit run = ([], ' ' :: run) := by
    rw [numSplit_eq, spanRev_all_run Char.isDigit run hall]
    simp [hrun]
    rfl
  rw [format_eq, h1, h2, h3, h4]
  have h5 : lookupStr nameMap (upperStr ([] : Str)) = none := by decide
  simp [h5, pyTitle, titleAux]

theorem format_fix_num (M run : Str) (hM : M ≠ []) (hrun : run ≠ [])
    (hall : ∀ y ∈ run, Char.isDigit y = true)
    (hMh : headOkB (fun c => !Char.isWhitespace c) M = true)
    (hMw : lastOkB (fun c => !Char.isWhitespace c) M = true)
    (hfix : (lookupStr nameMap (upperStr M)).getD (pyTitle M) = M) :
    format_section_name (M ++ ' ' :: run) = M ++ ' ' :: run := by
  obtain ⟨y, hy, hydig⟩ : ∃ y, run.getLast? = some y ∧ Char.isDigit y = true := by
    rcases hz : run.getLast? with _ | y
    · exact absurd (List.getLast?_eq_none_iff.mp hz) hrun
    · exact ⟨y, rfl, hall y (getLast?_mem' run y hz)⟩
  have hslast : (M ++ ' ' :: run).getLast? = some y := by
    rw [getLast?_append_cons_ne M ' ' run hrun, hy]
  have hsw : lastOkB (fun c => !Char.isWhitespace c) (M ++ ' ' :: run) = true := by
    rw [lastOkB_eq, hslast]
    simp [digit_not_ws y hydig]
  have hsr : lastOkB (fun c => !isRuleC c) (M ++ ' ' :: run) = true := by
    rw [lastOkB_eq, hslast]
    simp [digit_not_rule y hydig]
  have hsh : headOkB (fun c => !Char.isWhitespace c) (M ++ ' ' :: run) = true := by
    rw [headOkB_append _ _ _ hM]
    exact hMh
  have h1 : pyStrip (M ++ ' ' :: run) = M ++ ' ' :: run := pyStrip_eq_self _ hsh hsw
  have h2 : trimR isRuleC (M ++ ' ' :: run) = M ++ ' ' :: run := by
    rw [trimR, spanRev_eq_self isRuleC _ hsr]
  have hMsp : spanRev Char.isWhitespace M = (M, []) :=
    spanRev_eq_self Char.isWhitespace M hMw
  have hMcat : spanRev Char.isDigit (M ++ [' ']) = (M ++ [' '], []) := by
    apply spanRev_eq_self
    rw [lastOkB_eq, List.getLast?_concat]
    rfl
  have h3 : spanRev Char.isDigit (M ++ ' ' :: run) = (M ++ [' '], run) := by
    rw [show M ++ ' ' :: run = (M ++ [' ']) ++ run by rw [List.append_assoc]; rfl]
    exact spanRev_append_run Char.isDigit run hall (M ++ [' ']) hMcat
  have h5 : pyStrip (M ++ [' ']) = M := by
    rw [pyStrip, trimL, dropWhile_eq_self _ _ (by rw [headOkB_append _ _ _ hM]; exact hMh),
      trimR, spanRev_append_run Char.isWhitespace [' '] (by decide) M hMsp]
  have h4 : numSplit (M ++ ' ' :: run) = (M, ' ' :: run) := by
    rw [numSplit_eq, h3]
    simp [hrun, h5]
  rw [format_eq, h1, h2, h1, h4, hfix]

theorem format_fix_of_split (n2 : Str)
    (hh : headOkB (fun c => !Char.isWhitespace c) n2 = true)
    (hw : lastOkB (fun c => !Char.isWhitespace c) n2 = true)
    (hre : lastOkB (fun c => !isRuleC c)
      (((lookupStr nameMap (upperStr (numSplit n2).1)).getD
          (pyTitle (numSplit n2).1)) ++ (numSplit n2).2) = true) :
    format_section_name
      (((lookupStr nameMap (upperStr (numSplit n2).1)).getD
          (pyTitle (numSplit n2).1)) ++ (numSplit n2).2) =
      ((lookupStr nameMap (upperStr (numSplit n2).1)).getD
          (pyTitle (numSplit n2).1)) ++ (numSplit n2).2 := by
  rcases hnum : spanRev Char.isDigit n2 with ⟨pre, run⟩
  by_cases hrun : run = []
  · have hns : numSplit n2 = (n2, []) := by
      rw [numSplit_eq, hnum]
      simp [hrun]
    rw [hns] at hre ⊢
    dsimp only at hre ⊢
    rw [List.append_nil] at hre ⊢
    have hpre : pre = n2 := by
      have hp := spanRev_parts Char.isDigit n2
      rw [hnum] at hp
      dsimp only at hp
      simpa [hrun] using hp
    have hdig : lastOkB (fun c => !Char.isDigit c) n2 = true := by
      apply spanRev_last_false
      rw [hnum, hpre, hrun]
    rcases hlk : lookupStr nameMap (upperStr n2) with _ | v
    · rw [hlk, Option.getD_none] at hre
      rw [Option.getD_none]
      exact format_fix_title n2 hh hw hdig hlk hre
    · rw [Option.getD_some]
      have hfin : ∀ p ∈ nameMap, format_section_name p.2 = p.2 := by decide
      exact hfin (upperStr n2, v) (lookupStr_mem _ _ _ hlk)
  · have hns : numSplit n2 = (pyStrip pre, ' ' :: run) := by
      rw [numSplit_eq, hnum]
      simp [hrun]
    rw [hns] at hre ⊢
    dsimp only at hre ⊢
    have hall : ∀ y ∈ run, Char.isDigit y = true := by
      have h := spanRev_run_all Char.isDigit n2
      rw [hnum] at h
      exact h
    have hbh : headOkB (fun c => !Char.isWhitespace c) (pyStrip pre) = true :=
      pyStrip_headOk _
    have hbw : lastOkB (fun c => !Char.isWhitespace c) (pyStrip pre) = true :=
      pyStrip_lastOk _
    rcases hlk : lookupStr nameMap (upperStr (pyStrip pre)) with _ | v
    · rw [Option.getD_none]
      have hMh : headOkB (fun c => !Char.isWhitespace c) (pyTitle (pyStrip pre)) = true := by
        rw [headOkB_title _ bang_ws_low bang_ws_up]
        exact hbh
      have hMw : lastOkB (fun c => !Char.isWhitespace c) (pyTitle (pyStrip pre)) = true := by
        rw [lastOkB_title _ bang_ws_low bang_ws_up]
        exact hbw
      have hfix : (lookupStr nameMap (upperStr (pyTitle (pyStrip pre)))).getD
          (pyTitle (pyTitle (pyStrip pre))) = pyTitle (pyStrip pre) := by
        rw [upperStr_pyTitle, hlk, Option.getD_none, pyTitle_idem]
      by_cases hMnil : pyTitle (pyStrip pre) = []
      · rw [hMnil, List.nil_append]
        exact format_fix_num_nil run hrun hall
      · exact format_fix_num _ run hMnil hrun hall hMh hMw hfix
    · rw [Option.getD_some]
      have hmem := lookupStr_mem _ _ _ hlk
      have hvne : v ≠ [] := by
        have hfin : ∀ p ∈ nameMap, p.2 ≠ [] := by decide
        exact hfin _ hmem
      have hvh : headOkB (fun c => !Char.isWhitespace c) v = true := by
        have hfin : ∀ p ∈ nameMap,
            headOkB (fun c => !Char.isWhitespace c) p.2 = true := by decide
        exact hfin _ hmem
      have hvw : lastOkB (fun c => !Char.isWhitespace c) v = true := by
        have hfin : ∀ p ∈ nameMap,
            lastOkB (fun c => !Char.isWhitespace c) p.2 = true := by decide
        exact hfin _ hmem
      have hfix : (lookupStr nameMap (upperStr v)).getD (pyTitle v) = v := by
        have hfin : ∀ p ∈ nameMap, lookupStr nameMap (upperStr p.2) = some p.2 := by decide
        rw [hfin _ hmem, Option.getD_some]
      exact format_fix_num v run hvne hrun hall hvh hvw hfix

/-- C8 (amended): section-name formatting is table-driven with the four
claimed examples, and formatting an already-formatted name returns it
unchanged for every input whose formatted result does not end in a
rule-line character.  (Full idempotence fails: see the counterexample,
where the formatted result itself ends in a rule-line character that a
second pass then strips.) -/
theorem c8_section_name_format :
    (∀ l : Str, lastOkB (fun c => !isRuleC c) (format_section_name l) = true →
       format_section_name (format_section_name l) = format_section_name l) ∧
    format_section_name ("CHORUS".data) = "Chorus".data ∧
    format_section_name ("VERSE 2".data) = "Verse 2".data ∧
    format_section_name ("PRE-CHORUS".data) = "Pre Chorus".data ∧
    format_section_name ("Outro  ──".data) = "Outro".data := by
  refine ⟨?_, by decide, by decide, by decide, by decide⟩
  intro l hre
  rw [format_eq l] at hre ⊢
  exact format_fix_of_split (pyStrip (trimR isRuleC (pyStrip l)))
    (pyStrip_headOk _) (pyStrip_lastOk _) hre

/-- Witness for C8: reformatting the formatted `CHORUS` leaves it
unchanged. -/
theorem c8_section_name_format_witness :
    format_section_name (format_section_name ("CHORUS".data)) =
      format_section_name ("CHORUS".data) :=
  c8_section_name_format.1 ("CHORUS".data) (by decide)

/-- C8 counterexample: formatting is not idempotent on every string — the
input `- -` formats to `-` (only the final rule-character run is stripped),
and formatting `-` again yields the empty string. -/
theorem c8_counterexample :
    format_section_name (format_section_name ("- -".data)) ≠
      format_section_name ("- -".data) := by
  decide

end ChartForge
